import Mathlib

/-!
Verification of the core algorithms of the `helper` package:
canonical data standardization (`helper/data_format.py`), content-identifier
derivation (`helper/data_id.py`), and co-occurrence grouping
(`helper/utils.py`).

The Python data values handled by `data_standardization` are modelled by the
inductive type `Value` below (supported leaf types: `int`, `str`, `bool`,
`NoneType`, plus nested `list`, `tuple` and `dict` containers with string
keys).  Python's `str()` / `repr()` renderings are modelled character by
character, Python's stable `sorted` is modelled by a stable insertion sort,
and `json.dumps(..., sort_keys=True, default=str, ensure_ascii=True)` is
modelled by `jsonChars`.  The SHA-256 and MD5 digests used by
`convert_data_to_id` / `uuid.uuid3` are implemented in full.
-/

namespace HelperBkp

/-- Model of the Python values processed by `data_standardization`:
the JSON-able leaf types and the three container types the source code
dispatches on (`list`, `tuple`, `dict` with string keys). -/
inductive Value where
  | vInt (i : Int)
  | vStr (s : String)
  | vBool (b : Bool)
  | vNone
  | vList (xs : List Value)
  | vTuple (xs : List Value)
  | vDict (m : List (String × Value))

namespace Value

mutual

/-- Boolean structural equality on modelled values. -/
def beqV : Value → Value → Bool
  | .vInt a, .vInt b => a == b
  | .vStr a, .vStr b => a == b
  | .vBool a, .vBool b => a == b
  | .vNone, .vNone => true
  | .vList a, .vList b => beqL a b
  | .vTuple a, .vTuple b => beqL a b
  | .vDict a, .vDict b => beqM a b
  | _, _ => false

/-- Boolean structural equality on lists of modelled values. -/
def beqL : List Value → List Value → Bool
  | [], [] => true
  | a :: as, b :: bs => beqV a b && beqL as bs
  | _, _ => false

/-- Boolean structural equality on dict entry lists. -/
def beqM : List (String × Value) → List (String × Value) → Bool
  | [], [] => true
  | (k, v) :: as, (k2, v2) :: bs => k == k2 && beqV v v2 && beqM as bs
  | _, _ => false

end

mutual

theorem beqV_iff : ∀ a b : Value, beqV a b = true ↔ a = b
  | .vInt a, .vInt b => by simp [beqV]
  | .vStr a, .vStr b => by simp [beqV]
  | .vBool a, .vBool b => by simp [beqV]
  | .vNone, .vNone => by simp [beqV]
  | .vList a, .vList b => by simp [beqV, beqL_iff a b]
  | .vTuple a, .vTuple b => by simp [beqV, beqL_iff a b]
  | .vDict a, .vDict b => by simp [beqV, beqM_iff a b]
  | .vInt _, .vStr _ => by simp [beqV]
  | .vInt _, .vBool _ => by simp [beqV]
  | .vInt _, .vNone => by simp [beqV]
  | .vInt _, .vList _ => by simp [beqV]
  | .vInt _, .vTuple _ => by simp [beqV]
  | .vInt _, .vDict _ => by simp [beqV]
  | .vStr _, .vInt _ => by simp [beqV]
  | .vStr _, .vBool _ => by simp [beqV]
  | .vStr _, .vNone => by simp [beqV]
  | .vStr _, .vList _ => by simp [beqV]
  | .vStr _, .vTuple _ => by simp [beqV]
  | .vStr _, .vDict _ => by simp [beqV]
  | .vBool _, .vInt _ => by simp [beqV]
  | .vBool _, .vStr _ => by simp [beqV]
  | .vBool _, .vNone => by simp [beqV]
  | .vBool _, .vList _ => by simp [beqV]
  | .vBool _, .vTuple _ => by simp [beqV]
  | .vBool _, .vDict _ => by simp [beqV]
  | .vNone, .vInt _ => by simp [beqV]
  | .vNone, .vStr _ => by simp [beqV]
  | .vNone, .vBool _ => by simp [beqV]
  | .vNone, .vList _ => by simp [beqV]
  | .vNone, .vTuple _ => by simp [beqV]
  | .vNone, .vDict _ => by simp [beqV]
  | .vList _, .vInt _ => by simp [beqV]
  | .vList _, .vStr _ => by simp [beqV]
  | .vList _, .vBool _ => by simp [beqV]
  | .vList _, .vNone => by simp [beqV]
  | .vList _, .vTuple _ => by simp [beqV]
  | .vList _, .vDict _ => by simp [beqV]
  | .vTuple _, .vInt _ => by simp [beqV]
  | .vTuple _, .vStr _ => by simp [beqV]
  | .vTuple _, .vBool _ => by simp [beqV]
  | .vTuple _, .vNone => by simp [beqV]
  | .vTuple _, .vList _ => by simp [beqV]
  | .vTuple _, .vDict _ => by simp [beqV]
  | .vDict _, .vInt _ => by simp [beqV]
  | .vDict _, .vStr _ => by simp [beqV]
  | .vDict _, .vBool _ => by simp [beqV]
  | .vDict _, .vNone => by simp [beqV]
  | .vDict _, .vList _ => by simp [beqV]
  | .vDict _, .vTuple _ => by simp [beqV]

theorem beqL_iff : ∀ a b : List Value, beqL a b = true ↔ a = b
  | [], [] => by simp [beqL]
  | a :: as, b :: bs => by simp [beqL, beqV_iff a b, beqL_iff as bs]
  | [], _ :: _ => by simp [beqL]
  | _ :: _, [] => by simp [beqL]

theorem beqM_iff : ∀ a b : List (String × Value), beqM a b = true ↔ a = b
  | [], [] => by simp [beqM]
  | (k, v) :: as, (k2, v2) :: bs => by
      simp [beqM, beqV_iff v v2, beqM_iff as bs, and_assoc, Prod.ext_iff]
  | [], _ :: _ => by simp [beqM]
  | _ :: _, [] => by simp [beqM]

end

instance : DecidableEq Value := fun a b => decidable_of_iff _ (beqV_iff a b)

/-- Single-quote character (`chr 39`), the quote Python `repr` uses for
strings. -/
def squote : Char := Char.ofNat 39

/-- Opening curly brace character. -/
def lbrace : Char := Char.ofNat 123

/-- Closing curly brace character. -/
def rbrace : Char := Char.ofNat 125

/-- Decimal digit character for a digit value below ten. -/
def digitChar (d : Nat) : Char := Char.ofNat (48 + d)

/-- Decimal digits of `n`, most significant first, by repeated division
(the first argument is recursion fuel, `n` itself being enough). -/
def natCharsAux : Nat → Nat → List Char
  | 0, _ => []
  | fuel + 1, n => if n = 0 then [] else natCharsAux fuel (n / 10) ++ [digitChar (n % 10)]

/-- Decimal rendering of a natural number, as Python `str` renders it. -/
def natChars (n : Nat) : List Char :=
  if n = 0 then [digitChar 0] else natCharsAux n n

theorem natCharsAux_eq_digits :
    ∀ fuel n, n ≤ fuel → natCharsAux fuel n = ((Nat.digits 10 n).map digitChar).reverse := by
  intro fuel
  induction fuel with
  | zero =>
    intro n h
    obtain rfl : n = 0 := by omega
    simp [natCharsAux]
  | succ fuel ih =>
    intro n h
    by_cases h0 : n = 0
    · subst h0
      simp [natCharsAux]
    · rw [natCharsAux, if_neg h0,
        Nat.digits_def' (by norm_num : (1 : Nat) < 10) (Nat.pos_of_ne_zero h0),
        ih (n / 10) (by omega)]
      simp

/-- `natChars` renders exactly the base-10 digit string. -/
theorem natChars_eq_digits (n : Nat) :
    natChars n = if n = 0 then [digitChar 0] else ((Nat.digits 10 n).map digitChar).reverse := by
  unfold natChars
  split
  · rfl
  · exact natCharsAux_eq_digits n n le_rfl

/-- Decimal rendering of a Python `int` (`str(i)`). -/
def intChars (i : Int) : List Char :=
  if i < 0 then '-' :: natChars i.natAbs else natChars i.toNat

/-- Escaping of one character inside a single-quoted Python string `repr`:
backslashes and single quotes are escaped with a backslash. -/
def escChar (c : Char) : List Char :=
  if c = '\\' then ['\\', '\\']
  else if c = squote then ['\\', squote]
  else [c]

/-- Escaping of a character sequence inside a Python string `repr`. -/
def escChars (cs : List Char) : List Char := cs.flatMap escChar

/-- Python `repr` of a string: single-quoted with backslash escapes. -/
def reprStrChars (s : String) : List Char :=
  squote :: escChars s.data ++ [squote]

mutual

/-- Python `repr(v)` of a value, rendered as a character list.  This is what
`str(container)` interpolates for the elements of a container, and what
`compare_items`' `str(item)` yields for every non-string item. -/
def reprChars : Value → List Char
  | .vInt i => intChars i
  | .vStr s => reprStrChars s
  | .vBool true => "True".data
  | .vBool false => "False".data
  | .vNone => "None".data
  | .vList xs => '[' :: reprJoin xs ++ [']']
  | .vTuple [] => ['(', ')']
  | .vTuple [x] => '(' :: reprChars x ++ [',', ')']
  | .vTuple (x :: y :: xs) => '(' :: reprJoin (x :: y :: xs) ++ [')']
  | .vDict m => lbrace :: reprEntries m ++ [rbrace]

/-- The comma-space separated concatenation of the `repr`s of a list of
values, as it appears between the brackets of a Python container `repr`. -/
def reprJoin : List Value → List Char
  | [] => []
  | [x] => reprChars x
  | x :: y :: xs => reprChars x ++ ',' :: ' ' :: reprJoin (y :: xs)

/-- The comma-space separated `'key': value` entries of a Python dict
`repr`, in insertion order. -/
def reprEntries : List (String × Value) → List Char
  | [] => []
  | [(k, v)] => reprStrChars k ++ ':' :: ' ' :: reprChars v
  | (k, v) :: e :: m =>
      reprStrChars k ++ ':' :: ' ' :: reprChars v ++ ',' :: ' ' :: reprEntries (e :: m)

end

/-- Python `str(v)`: identical to `repr(v)` except on strings, which render
as their own characters. -/
def pyStrChars : Value → List Char
  | .vStr s => s.data
  | v => reprChars v

/-- Python `str(v)` as a Lean string. -/
def pyStr (v : Value) : String := ⟨pyStrChars v⟩

/-- Python `type(v).__name__` for each modelled value. -/
def typeName : Value → String
  | .vInt _ => "int"
  | .vStr _ => "str"
  | .vBool _ => "bool"
  | .vNone => "NoneType"
  | .vList _ => "list"
  | .vTuple _ => "tuple"
  | .vDict _ => "dict"

end Value

/-- The `type_order` table of `compare_items` in `data_format.py`:
a `defaultdict` defaulting to `0` with the eight listed entries. -/
def type_order (t : String) : Nat :=
  if t = "int" then 1
  else if t = "str" then 2
  else if t = "float" then 3
  else if t = "datetime" then 4
  else if t = "NoneType" then 5
  else if t = "bool" then 6
  else if t = "list" then 7
  else if t = "dict" then 8
  else 0

/-- `compare_items` from `data_format.py`, acting on the only two attributes
the source reads from each item: its `str()` rendering and its runtime type
name.  Returns `-1`, `0` or `1`. -/
def compare_items (item1 item2 : String × String) : Int :=
  if item1.1 ≠ item2.1 then (if item2.1.data < item1.1.data then 1 else -1)
  else if item1.2 ≠ item2.2 then
    (if type_order item2.2 < type_order item1.2 then 1 else -1)
  else 0

/-- `compare_items` applied to two modelled values (each item contributes
its `str()` form and its type name, exactly the data the source accesses). -/
def compareV (a b : Value) : Int :=
  compare_items (Value.pyStr a, Value.typeName a) (Value.pyStr b, Value.typeName b)

/-- The `≤`-style relation induced by the comparator, used by the stable
sort (`functools.cmp_to_key`): `a` may come before `b` iff the comparator
does not strictly order `b` before `a`. -/
def pyLe (a b : Value) : Prop := compareV a b ≤ 0

instance : DecidableRel pyLe := fun a b =>
  inferInstanceAs (Decidable (compareV a b ≤ 0))

/-- The tie-breaking rank of a value: the `type_order` entry of its runtime
type name. -/
def rankOf (v : Value) : Nat := type_order (Value.typeName v)

theorem compare_items_nonpos_iff (i1 i2 : String × String) :
    compare_items i1 i2 ≤ 0 ↔
      (i1.1.data < i2.1.data ∨ (i1.1 = i2.1 ∧ type_order i1.2 ≤ type_order i2.2)) := by
  unfold compare_items
  split_ifs with h1 h2 h3 h4
  · simp only [show ¬((1 : Int) ≤ 0) by decide, false_iff]
    rintro (hlt | ⟨heq, -⟩)
    · exact absurd hlt (lt_asymm h2)
    · exact h1 heq
  · simp only [show ((-1 : Int) ≤ 0) by decide, true_iff]
    exact Or.inl ((le_of_not_lt h2).lt_of_ne (fun hd => h1 (String.ext hd)))
  · simp only [show ¬((1 : Int) ≤ 0) by decide, false_iff]
    rintro (hlt | ⟨-, hle⟩)
    · exact absurd ((not_not.mp h1 : i1.1 = i2.1) ▸ hlt) (lt_irrefl _)
    · exact absurd h4 (not_lt_of_le hle)
  · simp only [show ((-1 : Int) ≤ 0) by decide, true_iff]
    exact Or.inr ⟨not_not.mp h1, le_of_not_lt h4⟩
  · simp only [show ((0 : Int) ≤ 0) by decide, true_iff]
    exact Or.inr ⟨not_not.mp h1, le_of_eq (by rw [not_not.mp h3])⟩

theorem pyLe_iff (a b : Value) :
    pyLe a b ↔
      (Value.pyStrChars a < Value.pyStrChars b ∨
        (Value.pyStr a = Value.pyStr b ∧ rankOf a ≤ rankOf b)) :=
  compare_items_nonpos_iff _ _

instance : IsTotal Value pyLe where
  total a b := by
    rw [pyLe_iff, pyLe_iff]
    rcases lt_trichotomy (Value.pyStrChars a) (Value.pyStrChars b) with h | h | h
    · exact Or.inl (Or.inl h)
    · have h2 : Value.pyStr a = Value.pyStr b := congrArg String.mk h
      rcases Nat.le_total (rankOf a) (rankOf b) with hr | hr
      · exact Or.inl (Or.inr ⟨h2, hr⟩)
      · exact Or.inr (Or.inr ⟨h2.symm, hr⟩)
    · exact Or.inr (Or.inl h)

instance : IsTrans Value pyLe where
  trans a b c hab hbc := by
    rw [pyLe_iff] at hab hbc ⊢
    rcases hab with hab | ⟨hab, hra⟩ <;> rcases hbc with hbc | ⟨hbc, hrb⟩
    · exact Or.inl (hab.trans hbc)
    · exact Or.inl ((show Value.pyStrChars b = Value.pyStrChars c from
        congrArg String.data hbc) ▸ hab)
    · exact Or.inl ((show Value.pyStrChars a = Value.pyStrChars b from
        congrArg String.data hab) ▸ hbc)
    · exact Or.inr ⟨hab.trans hbc, hra.trans hrb⟩

/-- Python's `sorted(list(d), key=functools.cmp_to_key(compare_items))`:
a stable sort ascending with respect to the comparator. -/
def pySorted (l : List Value) : List Value := List.insertionSort pyLe l

theorem pySorted_perm (l : List Value) : List.Perm (pySorted l) l :=
  List.perm_insertionSort pyLe l

theorem pySorted_sorted (l : List Value) : List.Sorted pyLe (pySorted l) :=
  List.sorted_insertionSort pyLe l

/-- Comparison of `(raw element, processed element)` pairs by the raw
element: the sort key used by `sorted(..., key=cmp_to_key(compare_items))`
in `sort_list` looks only at the raw element. -/
def pairLe (a b : Value × Value) : Prop := pyLe a.1 b.1

instance : DecidableRel pairLe := fun a b =>
  inferInstanceAs (Decidable (pyLe a.1 b.1))

/-- Comparison of keyed pairs by key, as `json.dumps(..., sort_keys=True)`
orders the serialized entries (keys of a Python dict are distinct, so the
sort never compares beyond the key). -/
def fstLe {α : Type} (a b : String × α) : Prop := a.1.data ≤ b.1.data

instance {α : Type} : DecidableRel (fstLe (α := α)) := fun a b =>
  inferInstanceAs (Decidable (a.1.data ≤ b.1.data))

instance {α : Type} : IsTotal (String × α) fstLe where
  total a b := le_total a.1.data b.1.data

instance {α : Type} : IsTrans (String × α) fstLe where
  trans _ _ _ hab hbc := le_trans hab hbc

mutual

/-- The value returned by `sort_list` / left behind by `sort_dict`
(`data_format.py`): a list or tuple is first sorted by `compare_items` on
its *raw* elements, each element is then recursively processed, and the
result becomes a tuple; a dict keeps its entries in insertion order but has
each value recursively processed.  (Elements are paired with their
processed forms and the pairs are sorted by the raw component, which by
`stdC_vList` below coincides with sorting first and recursing after, as the
source does.) -/
def stdC : Value → Value
  | .vList xs => .vTuple ((List.insertionSort pairLe (stdPairs xs)).map Prod.snd)
  | .vTuple xs => .vTuple ((List.insertionSort pairLe (stdPairs xs)).map Prod.snd)
  | .vDict m => .vDict (stdEntries m)
  | v => v

/-- Each element of a sequence paired with its recursively processed form. -/
def stdPairs : List Value → List (Value × Value)
  | [] => []
  | x :: t => (x, stdC x) :: stdPairs t

/-- `sort_dict`: every dict value recursively processed in place, entry
order untouched. -/
def stdEntries : List (String × Value) → List (String × Value)
  | [] => []
  | (k, v) :: t => (k, stdC v) :: stdEntries t

end

theorem stdPairs_eq_map (xs : List Value) :
    stdPairs xs = xs.map fun x => (x, stdC x) := by
  induction xs with
  | nil => rfl
  | cons x t ih => simp [stdPairs, ih]

theorem stdEntries_eq_map (m : List (String × Value)) :
    stdEntries m = m.map fun kv => (kv.1, stdC kv.2) := by
  induction m with
  | nil => rfl
  | cons kv t ih =>
    rcases kv with ⟨k, v⟩
    simp [stdEntries, ih]

/-- A stable sort commutes with tagging each element, when the comparator
looks only at the original element. -/
theorem orderedInsert_map_comm {α β : Type} (r : α → α → Prop) (r2 : β → β → Prop)
    [DecidableRel r] [DecidableRel r2] (F : α → β)
    (hF : ∀ a b, r2 (F a) (F b) ↔ r a b) (x : α) (l : List α) :
    List.orderedInsert r2 (F x) (l.map F) = (List.orderedInsert r x l).map F := by
  induction l with
  | nil => simp
  | cons b t ih =>
    by_cases h : r x b
    · simp [List.orderedInsert, h, (hF x b).mpr h]
    · have h2 : ¬ r2 (F x) (F b) := fun hc => h ((hF x b).mp hc)
      simp [List.orderedInsert, h, h2, ih]

theorem insertionSort_map_comm {α β : Type} (r : α → α → Prop) (r2 : β → β → Prop)
    [DecidableRel r] [DecidableRel r2] (F : α → β)
    (hF : ∀ a b, r2 (F a) (F b) ↔ r a b) (l : List α) :
    List.insertionSort r2 (l.map F) = (List.insertionSort r l).map F := by
  induction l with
  | nil => simp
  | cons x t ih => simp [List.insertionSort, ih, orderedInsert_map_comm r r2 F hF]

/-- The source-shaped characterization of `stdC` on a list: sort the raw
elements, then recursively process each, then fix the result as a tuple. -/
theorem stdC_vList (xs : List Value) :
    stdC (.vList xs) = .vTuple ((pySorted xs).map stdC) := by
  rw [stdC, stdPairs_eq_map,
    insertionSort_map_comm pyLe pairLe (fun x => (x, stdC x)) (fun a b => Iff.rfl) xs]
  simp [pySorted, List.map_map]

/-- The source-shaped characterization of `stdC` on a tuple. -/
theorem stdC_vTuple (xs : List Value) :
    stdC (.vTuple xs) = .vTuple ((pySorted xs).map stdC) := by
  rw [stdC, stdPairs_eq_map,
    insertionSort_map_comm pyLe pairLe (fun x => (x, stdC x)) (fun a b => Iff.rfl) xs]
  simp [pySorted, List.map_map]

theorem stdC_vDict (m : List (String × Value)) :
    stdC (.vDict m) = .vDict (m.map fun kv => (kv.1, stdC kv.2)) := by
  rw [stdC, stdEntries_eq_map]

/-- The entry list of a dict as serialized by `json.dumps` with
`sort_keys=True`: stably sorted by key. -/
def sortByKey (m : List (String × Value)) : List (String × Value) :=
  List.insertionSort fstLe m

/-- Lowercase hexadecimal digit character. -/
def hexDigitChar (n : Nat) : Char :=
  if n < 10 then Char.ofNat (48 + n) else Char.ofNat (87 + n)

/-- Four lowercase hex digits (big-endian) of a number below `2^16`. -/
def hex4 (n : Nat) : List Char :=
  [hexDigitChar (n / 4096 % 16), hexDigitChar (n / 256 % 16),
   hexDigitChar (n / 16 % 16), hexDigitChar (n % 16)]

/-- A `\uXXXX` JSON escape. -/
def uEsc (n : Nat) : List Char := '\\' :: 'u' :: hex4 n

/-- Escaping of one character by `json.dumps` with `ensure_ascii=True`:
the two-character shorthands, `\uXXXX` for other control and all non-ASCII
characters (as a surrogate pair beyond the basic plane). -/
def jsonEscChar (c : Char) : List Char :=
  if c = '"' then ['\\', '"']
  else if c = '\\' then ['\\', '\\']
  else if c = Char.ofNat 10 then ['\\', 'n']
  else if c = Char.ofNat 9 then ['\\', 't']
  else if c = Char.ofNat 13 then ['\\', 'r']
  else if c = Char.ofNat 8 then ['\\', 'b']
  else if c = Char.ofNat 12 then ['\\', 'f']
  else if c.toNat < 32 then uEsc c.toNat
  else if c.toNat < 128 then [c]
  else if c.toNat < 65536 then uEsc c.toNat
  else uEsc (55296 + (c.toNat - 65536) / 1024) ++ uEsc (56320 + (c.toNat - 65536) % 1024)

/-- JSON rendering of a string (`json.dumps` with `ensure_ascii=True`). -/
def jsonStrChars (s : String) : List Char :=
  '"' :: s.data.flatMap jsonEscChar ++ ['"']

/-- `", "`-separated concatenation, the default JSON item separator. -/
def joinCS (xss : List (List Char)) : List Char :=
  List.intercalate [',', ' '] xss

mutual

/-- `json.dumps(v, sort_keys=True, default=str, ensure_ascii=True)`:
ints in decimal, strings escaped, booleans and `None` as JSON literals,
lists and tuples as arrays, dicts as objects with entries sorted by key
(each value is rendered and the rendered entries are sorted by key, which
by `jsonChars_vDict` below coincides with sorting the entries first, as the
serializer does). -/
def jsonChars : Value → List Char
  | .vInt i => Value.intChars i
  | .vStr s => jsonStrChars s
  | .vBool true => "true".data
  | .vBool false => "false".data
  | .vNone => "null".data
  | .vList xs => '[' :: jsonJoin xs ++ [']']
  | .vTuple xs => '[' :: jsonJoin xs ++ [']']
  | .vDict m =>
      Value.lbrace ::
        jsonEntryJoin (List.insertionSort fstLe (jsonEntryPairs m)) ++ [Value.rbrace]

/-- The `", "`-separated renderings of the elements of an array. -/
def jsonJoin : List Value → List Char
  | [] => []
  | [x] => jsonChars x
  | x :: y :: t => jsonChars x ++ ',' :: ' ' :: jsonJoin (y :: t)

/-- Each dict entry paired with the rendering of its value. -/
def jsonEntryPairs : List (String × Value) → List (String × List Char)
  | [] => []
  | (k, v) :: t => (k, jsonChars v) :: jsonEntryPairs t

/-- The `", "`-separated `"key": value` renderings of dict entries. -/
def jsonEntryJoin : List (String × List Char) → List Char
  | [] => []
  | [(k, v)] => jsonStrChars k ++ ':' :: ' ' :: v
  | (k, v) :: e :: t => jsonStrChars k ++ ':' :: ' ' :: v ++ ',' :: ' ' :: jsonEntryJoin (e :: t)

end

theorem jsonEntryPairs_eq_map (m : List (String × Value)) :
    jsonEntryPairs m = m.map fun kv => (kv.1, jsonChars kv.2) := by
  induction m with
  | nil => rfl
  | cons kv t ih =>
    rcases kv with ⟨k, v⟩
    simp [jsonEntryPairs, ih]

/-- The source-shaped characterization of dict serialization: the entries
are sorted by key first and each value is rendered after. -/
theorem jsonChars_vDict (m : List (String × Value)) :
    jsonChars (.vDict m) =
      Value.lbrace ::
        jsonEntryJoin ((sortByKey m).map fun kv => (kv.1, jsonChars kv.2)) ++ [Value.rbrace] := by
  rw [jsonChars, jsonEntryPairs_eq_map,
    insertionSort_map_comm fstLe fstLe (fun kv => (kv.1, jsonChars kv.2))
      (fun a b => Iff.rfl) m]
  rfl

/-- `data_standardization` from `data_format.py`, restricted to (deep-copied)
`Value` inputs: containers are sorted and serialized to a JSON string,
anything else is returned unchanged. -/
def dataStandardization (data : Value) : Value :=
  match data with
  | .vList _ => .vStr ⟨jsonChars (stdC data)⟩
  | .vTuple _ => .vStr ⟨jsonChars (stdC data)⟩
  | .vDict _ => .vStr ⟨jsonChars (stdC data)⟩
  | _ => data

namespace Value

/-! ### A parser for the `repr` rendering

The parser below is a proof device: `repr` renderings are shown to parse
back to the value they came from, which makes the rendering injective —
the key fact behind order-independence of the canonical serialization
(two distinct values never tie in `compare_items`). -/

/-- Decimal digit test. -/
def isDigitCh (c : Char) : Bool := 48 ≤ c.toNat && c.toNat ≤ 57

/-- Value of a decimal digit character. -/
def digitVal (c : Char) : Nat := c.toNat - 48

/-- Decimal reading of a digit string (most significant first). -/
def readNat (cs : List Char) : Nat := cs.foldl (fun a c => 10 * a + digitVal c) 0

/-- Scan the remainder of a single-quoted string literal after its opening
quote: unescape characters until the closing quote, returning the content
and what follows the literal. -/
def scanStr : List Char → Option (List Char × List Char)
  | [] => none
  | c :: r =>
    if c = '\\' then
      match r with
      | [] => none
      | c2 :: r2 => (scanStr r2).map fun p => (c2 :: p.1, p.2)
    else if c = squote then some ([], r)
    else (scanStr r).map fun p => (c :: p.1, p.2)
termination_by cs => cs.length
decreasing_by
  all_goals simp <;> omega

mutual

/-- Parse one `repr`-rendered value from the front of a character list.
The first argument is recursion fuel. -/
def parseV : Nat → List Char → Option (Value × List Char)
  | 0, _ => none
  | fuel + 1, cs =>
    match cs with
    | [] => none
    | c :: r =>
      if isDigitCh c then
        some (.vInt ((readNat ((c :: r).takeWhile isDigitCh) : Nat) : Int),
              (c :: r).dropWhile isDigitCh)
      else if c = '-' then
        match r.takeWhile isDigitCh with
        | [] => none
        | ds => some (.vInt (-((readNat ds : Nat) : Int)), r.dropWhile isDigitCh)
      else if c = squote then
        (scanStr r).map fun p => (.vStr ⟨p.1⟩, p.2)
      else if c = lbrace then
        match r with
        | [] => none
        | c2 :: r2 =>
          if c2 = rbrace then some (.vDict [], r2)
          else
            match parseEntries fuel r with
            | some (es, c3 :: r3) => if c3 = rbrace then some (.vDict es, r3) else none
            | _ => none
      else if c = '[' then
        match r with
        | [] => none
        | c2 :: r2 =>
          if c2 = ']' then some (.vList [], r2)
          else
            match parseItems fuel r with
            | some (vs, ']' :: r3) => some (.vList vs, r3)
            | _ => none
      else if c = '(' then
        match r with
        | [] => none
        | c2 :: r2 =>
          if c2 = ')' then some (.vTuple [], r2)
          else
            match parseItems fuel r with
            | some (vs, ',' :: ')' :: r3) => some (.vTuple vs, r3)
            | some (vs, ')' :: r3) => some (.vTuple vs, r3)
            | _ => none
      else
        match c :: r with
        | 'T' :: 'r' :: 'u' :: 'e' :: r2 => some (.vBool true, r2)
        | 'F' :: 'a' :: 'l' :: 's' :: 'e' :: r2 => some (.vBool false, r2)
        | 'N' :: 'o' :: 'n' :: 'e' :: r2 => some (.vNone, r2)
        | _ => none

/-- Parse a nonempty `", "`-separated sequence of `repr`-rendered values. -/
def parseItems : Nat → List Char → Option (List Value × List Char)
  | 0, _ => none
  | fuel + 1, cs =>
    match parseV fuel cs with
    | none => none
    | some (v, r) =>
      match r with
      | ',' :: ' ' :: r2 =>
        match parseItems fuel r2 with
        | some (vs, r3) => some (v :: vs, r3)
        | none => none
      | _ => some ([v], r)

/-- Parse a nonempty `", "`-separated sequence of `'key': value` entries. -/
def parseEntries : Nat → List Char → Option (List (String × Value) × List Char)
  | 0, _ => none
  | fuel + 1, cs =>
    match cs with
    | [] => none
    | c :: r =>
      if c = squote then
        match scanStr r with
        | some (k, ':' :: ' ' :: r2) =>
          match parseV fuel r2 with
          | some (v, r3) =>
            match r3 with
            | ',' :: ' ' :: r4 =>
              match parseEntries fuel r4 with
              | some (es, r5) => some ((⟨k⟩, v) :: es, r5)
              | none => none
            | _ => some ([(⟨k⟩, v)], r3)
          | none => none
        | _ => none
      else none

end

/-- The character lists that may legitimately follow a `repr` rendering
inside a larger rendering: nothing, or a separator/closer. -/
def isStop : List Char → Prop
  | [] => True
  | c :: _ => c = ',' ∨ c = ']' ∨ c = ')' ∨ c = rbrace

/-- Stop condition for item/entry sequences: additionally, the remainder
must not begin with the item separator `", "`. -/
def isStopSeq (cs : List Char) : Prop := isStop cs ∧ cs.take 2 ≠ [',', ' ']

theorem toNat_ofNat_valid {n : Nat} (h : n < 55296) : (Char.ofNat n).toNat = n := by
  unfold Char.ofNat
  rw [dif_pos (Or.inl h)]
  rfl

theorem isDigitCh_digitChar {d : Nat} (h : d < 10) : isDigitCh (digitChar d) = true := by
  have hv : (digitChar d).toNat = 48 + d := toNat_ofNat_valid (by omega)
  simp [isDigitCh, hv]
  omega

theorem digitVal_digitChar {d : Nat} (h : d < 10) : digitVal (digitChar d) = d := by
  have hv : (digitChar d).toNat = 48 + d := toNat_ofNat_valid (by omega)
  simp [digitVal, hv]

theorem natChars_ne_nil (n : Nat) : natChars n ≠ [] := by
  rw [natChars_eq_digits]
  split
  · simp
  · simp only [ne_eq, List.reverse_eq_nil_iff, List.map_eq_nil_iff]
    simpa [Nat.digits_ne_nil_iff_ne_zero] using (by assumption : ¬ n = 0)

theorem natChars_digits (n : Nat) : ∀ c ∈ natChars n, isDigitCh c = true := by
  intro c hc
  rw [natChars_eq_digits] at hc
  split at hc
  · simp at hc
    subst hc
    exact isDigitCh_digitChar (by omega)
  · rw [List.mem_reverse, List.mem_map] at hc
    obtain ⟨d, hd, rfl⟩ := hc
    exact isDigitCh_digitChar (Nat.digits_lt_base (by omega) hd)

theorem readNat_aux (D : List Nat) (h : ∀ d ∈ D, d < 10) :
    List.foldr (fun c a => 10 * a + digitVal c) 0 (D.map digitChar) = Nat.ofDigits 10 D := by
  induction D with
  | nil => simp [Nat.ofDigits]
  | cons d D ih =>
    simp only [List.map_cons, List.foldr_cons, Nat.ofDigits_cons]
    rw [ih (fun x hx => h x (List.mem_cons_of_mem _ hx)),
      digitVal_digitChar (h d (List.mem_cons_self _ _))]
    ring

theorem readNat_natChars (n : Nat) : readNat (natChars n) = n := by
  rw [natChars_eq_digits]
  unfold readNat
  split
  · subst n
    simp [digitVal_digitChar]
  · rw [List.foldl_reverse]
    have := readNat_aux (Nat.digits 10 n) (fun d hd => Nat.digits_lt_base (by omega) hd)
    simpa [this] using Nat.ofDigits_digits 10 n

theorem isStop_head_not_digit {rest : List Char} (h : isStop rest) :
    ∀ c, rest = c :: rest.tail → isDigitCh c = false := by
  intro c hc
  cases rest with
  | nil => simp at hc
  | cons c0 r =>
    obtain rfl : c0 = c := by simpa using congrArg (fun l => l.headD c) hc
    rcases h with h | h | h | h <;> subst h <;> decide

theorem digits_split {ds rest : List Char} (hd : ∀ c ∈ ds, isDigitCh c = true)
    (hr : isStop rest) :
    (ds ++ rest).takeWhile isDigitCh = ds ∧ (ds ++ rest).dropWhile isDigitCh = rest := by
  induction ds with
  | nil =>
    simp only [List.nil_append]
    cases rest with
    | nil => simp
    | cons c0 r =>
      have := isStop_head_not_digit hr c0 rfl
      simp [List.takeWhile_cons, List.dropWhile_cons, this]
  | cons c ds ih =>
    have hc : isDigitCh c = true := hd c (List.mem_cons_self _ _)
    have := ih (fun x hx => hd x (List.mem_cons_of_mem _ hx))
    simp [List.takeWhile_cons, List.dropWhile_cons, hc, this]

theorem sizeOf_value_pos (v : Value) : 0 < sizeOf v := by
  cases v <;> simp

theorem sizeOf_vlist_pos (xs : List Value) : 0 < sizeOf xs := by
  cases xs <;> simp

theorem sizeOf_ventries_pos (m : List (String × Value)) : 0 < sizeOf m := by
  cases m <;> simp

/-- Every `repr` rendering is nonempty and starts with a character that
identifies the branch the parser will take. -/
theorem reprChars_head (v : Value) : ∃ c cs, reprChars v = c :: cs ∧
    (isDigitCh c = true ∨ c = '-' ∨ c = squote ∨ c = 'T' ∨ c = 'F' ∨ c = 'N' ∨
     c = '[' ∨ c = '(' ∨ c = lbrace) := by
  cases v with
  | vInt i =>
    by_cases h : i < 0
    · exact ⟨'-', natChars i.natAbs, by simp [reprChars, intChars, h], Or.inr (Or.inl rfl)⟩
    · obtain ⟨d, ds, hds⟩ : ∃ d ds, natChars i.toNat = d :: ds := by
        cases hh : natChars i.toNat with
        | nil => exact absurd hh (natChars_ne_nil _)
        | cons d ds => exact ⟨d, ds, rfl⟩
      refine ⟨d, ds, by simp [reprChars, intChars, h, hds], Or.inl ?_⟩
      exact natChars_digits _ d (hds ▸ List.mem_cons_self _ _)
  | vStr s =>
    exact ⟨squote, escChars s.data ++ [squote], by simp [reprChars, reprStrChars], by tauto⟩
  | vBool b =>
    cases b
    · exact ⟨'F', "alse".data, rfl, by tauto⟩
    · exact ⟨'T', "rue".data, rfl, by tauto⟩
  | vNone => exact ⟨'N', "one".data, rfl, by tauto⟩
  | vList xs => exact ⟨'[', reprJoin xs ++ [']'], by simp [reprChars], by tauto⟩
  | vTuple xs =>
    rcases xs with _ | ⟨x, _ | ⟨y, t⟩⟩
    · exact ⟨'(', [')'], rfl, by tauto⟩
    · exact ⟨'(', reprChars x ++ [',', ')'], by simp [reprChars], by tauto⟩
    · exact ⟨'(', reprJoin (x :: y :: t) ++ [')'], by simp [reprChars], by tauto⟩
  | vDict m => exact ⟨lbrace, reprEntries m ++ [rbrace], by simp [reprChars], by tauto⟩

/-- A `repr` head character is never one of the closers the parser's
lookahead tests for. -/
theorem head_class_ne {c : Char}
    (h : isDigitCh c = true ∨ c = '-' ∨ c = squote ∨ c = 'T' ∨ c = 'F' ∨ c = 'N' ∨
      c = '[' ∨ c = '(' ∨ c = lbrace) :
    c ≠ ']' ∧ c ≠ ')' ∧ c ≠ rbrace := by
  rcases h with h | h | h | h | h | h | h | h | h
  · refine ⟨?_, ?_, ?_⟩ <;> rintro rfl <;> revert h <;> decide
  all_goals subst h
  all_goals exact ⟨by decide, by decide, by decide⟩

theorem scanStr_roundtrip (s rest : List Char) :
    scanStr (escChars s ++ squote :: rest) = some (s, rest) := by
  induction s with
  | nil =>
    rw [show escChars [] = [] from rfl, List.nil_append, scanStr.eq_def]
    simp [show ¬ (squote = '\\') from by decide]
  | cons c s ih =>
    by_cases h1 : c = '\\'
    · subst h1
      rw [show escChars ('\\' :: s) = '\\' :: '\\' :: escChars s from rfl]
      rw [List.cons_append, List.cons_append, scanStr.eq_def]
      simp [ih]
    · by_cases h2 : c = squote
      · subst h2
        rw [show escChars (squote :: s) = '\\' :: squote :: escChars s from by
          simp [escChars, escChar, show ¬ (squote = '\\') from by decide]]
        rw [List.cons_append, List.cons_append, scanStr.eq_def]
        simp [ih]
      · rw [show escChars (c :: s) = c :: escChars s from by simp [escChars, escChar, h1, h2]]
        rw [List.cons_append, scanStr.eq_def]
        simp [h1, h2, ih]

theorem reprJoin_cons (x : Value) (t : List Value) :
    ∃ tl, reprJoin (x :: t) = reprChars x ++ tl := by
  cases t with
  | nil => exact ⟨[], by simp [reprJoin]⟩
  | cons y t2 => exact ⟨',' :: ' ' :: reprJoin (y :: t2), rfl⟩

theorem reprEntries_head (k : String) (v : Value) (m : List (String × Value)) :
    ∃ tl, reprEntries ((k, v) :: m) = squote :: tl := by
  cases m with
  | nil => exact ⟨escChars k.data ++ [squote] ++ ':' :: ' ' :: reprChars v, by
      simp [reprEntries, reprStrChars]⟩
  | cons e m2 => exact ⟨escChars k.data ++ [squote] ++ ':' :: ' ' :: reprChars v ++
      ',' :: ' ' :: reprEntries (e :: m2), by simp [reprEntries, reprStrChars]⟩

theorem parseItems_last (fuel : Nat) (v : Value) (r cs : List Char)
    (h : parseV fuel cs = some (v, r)) (hr : r.take 2 ≠ [',', ' ']) :
    parseItems (fuel+1) cs = some ([v], r) := by
  rw [parseItems]
  simp only [h]
  split
  · exact absurd (by simp) hr
  · rfl

theorem parseItems_more (fuel : Nat) (v : Value) (vs : List Value) (r3 cs cs2 : List Char)
    (h : parseV fuel cs = some (v, ',' :: ' ' :: cs2))
    (h2 : parseItems fuel cs2 = some (vs, r3)) :
    parseItems (fuel+1) cs = some (v :: vs, r3) := by
  rw [parseItems]
  simp only [h, h2]

theorem parseEntries_last (fuel : Nat) (k : List Char) (v : Value) (r r2 r3 : List Char)
    (hscan : scanStr r = some (k, ':' :: ' ' :: r2))
    (hv : parseV fuel r2 = some (v, r3)) (hr : r3.take 2 ≠ [',', ' ']) :
    parseEntries (fuel+1) (squote :: r) = some ([(⟨k⟩, v)], r3) := by
  rw [parseEntries]
  simp +decide only [hscan, hv, if_true]
  split
  · exact absurd (by simp) hr
  · rfl

theorem parseEntries_more (fuel : Nat) (k : List Char) (v : Value)
    (es : List (String × Value)) (r r2 r4 r5 : List Char)
    (hscan : scanStr r = some (k, ':' :: ' ' :: r2))
    (hv : parseV fuel r2 = some (v, ',' :: ' ' :: r4))
    (h2 : parseEntries fuel r4 = some (es, r5)) :
    parseEntries (fuel+1) (squote :: r) = some ((⟨k⟩, v) :: es, r5) := by
  rw [parseEntries]
  simp +decide only [hscan, hv, h2, if_true]

/-- The parser inverts the `repr` rendering: with enough fuel, a rendered
value followed by a legitimate stop sequence parses back to exactly that
value (and similarly for item and entry sequences). -/
theorem parse_roundtrip : ∀ fuel : Nat,
    (∀ v : Value, sizeOf v ≤ fuel → ∀ rest, isStop rest →
      parseV fuel (reprChars v ++ rest) = some (v, rest)) ∧
    (∀ xs : List Value, xs ≠ [] → sizeOf xs ≤ fuel → ∀ rest, isStopSeq rest →
      parseItems fuel (reprJoin xs ++ rest) = some (xs, rest)) ∧
    (∀ m : List (String × Value), m ≠ [] → sizeOf m ≤ fuel → ∀ rest, isStopSeq rest →
      parseEntries fuel (reprEntries m ++ rest) = some (m, rest)) := by
  intro fuel
  induction fuel with
  | zero =>
    refine ⟨fun v hv => absurd hv (by have := sizeOf_value_pos v; omega),
            fun xs h hv => absurd hv (by have := sizeOf_vlist_pos xs; omega),
            fun m h hv => absurd hv (by have := sizeOf_ventries_pos m; omega)⟩
  | succ fuel ih =>
    obtain ⟨ihV, ihI, ihE⟩ := ih
    refine ⟨?_, ?_, ?_⟩
    · intro v hv rest hrest
      cases v with
      | vInt i =>
        by_cases hneg : i < 0
        · have hall : ∀ c ∈ natChars i.natAbs, isDigitCh c = true := natChars_digits _
          have hsplit := digits_split hall hrest
          obtain ⟨d, ds, hds⟩ : ∃ d ds, natChars i.natAbs = d :: ds := by
            cases hh : natChars i.natAbs with
            | nil => exact absurd hh (natChars_ne_nil _)
            | cons d ds => exact ⟨d, ds, rfl⟩
          rw [show reprChars (.vInt i) ++ rest = '-' :: (natChars i.natAbs ++ rest) from by
            simp [reprChars, intChars, hneg]]
          simp +decide only [parseV]
          rw [hsplit.1, hsplit.2, hds]
          have hval : -((readNat (d :: ds) : Nat) : Int) = i := by
            have h9 : readNat (d :: ds) = i.natAbs := by
              rw [← hds]
              exact readNat_natChars _
            rw [h9]
            omega
          simp [hval]
        · have hall : ∀ c ∈ natChars i.toNat, isDigitCh c = true := natChars_digits _
          have hsplit := digits_split hall hrest
          obtain ⟨d, ds, hds⟩ : ∃ d ds, natChars i.toNat = d :: ds := by
            cases hh : natChars i.toNat with
            | nil => exact absurd hh (natChars_ne_nil _)
            | cons d ds => exact ⟨d, ds, rfl⟩
          rw [show reprChars (.vInt i) ++ rest = natChars i.toNat ++ rest from by
            simp [reprChars, intChars, hneg], hds, List.cons_append]
          have hd : isDigitCh d = true := hall d (hds ▸ List.mem_cons_self _ _)
          simp +decide only [parseV, hd]
          rw [show d :: (ds ++ rest) = (d :: ds) ++ rest from rfl, ← hds, hsplit.1, hsplit.2]
          have hval : ((readNat (natChars i.toNat) : Nat) : Int) = i := by
            rw [readNat_natChars]
            omega
          simp [hval]
      | vStr s =>
        rw [show reprChars (.vStr s) ++ rest = squote :: (escChars s.data ++ squote :: rest)
          from by simp [reprChars, reprStrChars]]
        simp +decide [parseV, scanStr_roundtrip]
      | vBool b =>
        cases b
        · rw [show reprChars (.vBool false) ++ rest = 'F' :: 'a' :: 'l' :: 's' :: 'e' :: rest
            from rfl]
          simp +decide [parseV]
        · rw [show reprChars (.vBool true) ++ rest = 'T' :: 'r' :: 'u' :: 'e' :: rest from rfl]
          simp +decide [parseV]
      | vNone =>
        rw [show reprChars .vNone ++ rest = 'N' :: 'o' :: 'n' :: 'e' :: rest from rfl]
        simp +decide [parseV]
      | vList xs =>
        cases xs with
        | nil =>
          rw [show reprChars (.vList []) ++ rest = '[' :: ']' :: rest from by
            simp [reprChars, reprJoin]]
          simp +decide [parseV]
        | cons x t =>
          obtain ⟨cx, csx, hx, hcls⟩ := reprChars_head x
          obtain ⟨tl, htl⟩ := reprJoin_cons x t
          have hne := head_class_ne hcls
          have hitems : parseItems fuel (reprJoin (x :: t) ++ ']' :: rest) =
              some (x :: t, ']' :: rest) :=
            ihI (x :: t) (by simp) (by simp at hv ⊢; omega) _ ⟨by simp [isStop], by simp⟩
          rw [show reprChars (.vList (x :: t)) ++ rest =
              '[' :: (reprJoin (x :: t) ++ ']' :: rest) from by simp [reprChars]]
          rw [htl, hx] at hitems ⊢
          simp +decide only [parseV, List.cons_append, List.append_assoc] at hitems ⊢
          simp [hne.1, hitems]
      | vTuple xs =>
        rcases xs with _ | ⟨x, _ | ⟨y, t⟩⟩
        · rw [show reprChars (.vTuple []) ++ rest = '(' :: ')' :: rest from rfl]
          simp +decide [parseV]
        · obtain ⟨cx, csx, hx, hcls⟩ := reprChars_head x
          have hne := head_class_ne hcls
          have hitems : parseItems fuel (reprJoin [x] ++ ',' :: ')' :: rest) =
              some ([x], ',' :: ')' :: rest) :=
            ihI [x] (by simp) (by simp at hv ⊢; omega) _ ⟨by simp [isStop], by simp⟩
          rw [show reprChars (.vTuple [x]) ++ rest =
              '(' :: (reprJoin [x] ++ ',' :: ')' :: rest) from by simp [reprChars, reprJoin]]
          rw [show reprJoin [x] = reprChars x from rfl, hx] at hitems ⊢
          simp +decide only [parseV, List.cons_append, List.append_assoc] at hitems ⊢
          simp [hne.2.1, hitems]
        · obtain ⟨cx, csx, hx, hcls⟩ := reprChars_head x
          obtain ⟨tl, htl⟩ := reprJoin_cons x (y :: t)
          have hne := head_class_ne hcls
          have hitems : parseItems fuel (reprJoin (x :: y :: t) ++ ')' :: rest) =
              some (x :: y :: t, ')' :: rest) :=
            ihI _ (by simp) (by simp at hv ⊢; omega) _ ⟨by simp [isStop], by simp⟩
          rw [show reprChars (.vTuple (x :: y :: t)) ++ rest =
              '(' :: (reprJoin (x :: y :: t) ++ ')' :: rest) from by simp [reprChars]]
          rw [htl, hx] at hitems ⊢
          simp +decide only [parseV, List.cons_append, List.append_assoc] at hitems ⊢
          simp [hne.2.1, hitems]
      | vDict m =>
        cases m with
        | nil =>
          rw [show reprChars (.vDict []) ++ rest = lbrace :: rbrace :: rest from by
            simp [reprChars, reprEntries]]
          simp +decide [parseV]
        | cons e m2 =>
          obtain ⟨k, v⟩ := e
          obtain ⟨tl, htl⟩ := reprEntries_head k v m2
          have hents : parseEntries fuel (reprEntries ((k, v) :: m2) ++ rbrace :: rest) =
              some ((k, v) :: m2, rbrace :: rest) :=
            ihE _ (by simp) (by simp at hv ⊢; omega) _ ⟨by simp [isStop], by simp +decide⟩
          rw [show reprChars (.vDict ((k, v) :: m2)) ++ rest =
              lbrace :: (reprEntries ((k, v) :: m2) ++ rbrace :: rest) from by
            simp [reprChars]]
          rw [htl] at hents ⊢
          simp +decide only [parseV, List.cons_append, List.append_assoc] at hents ⊢
          simp +decide [hents]
    · intro xs hxs hs rest hrest
      cases xs with
      | nil => exact absurd rfl hxs
      | cons x t =>
        cases t with
        | nil =>
          have h := ihV x (by simp at hs; omega) rest hrest.1
          rw [show reprJoin [x] = reprChars x from rfl]
          exact parseItems_last fuel x rest _ h hrest.2
        | cons y t2 =>
          have h := ihV x (by simp at hs ⊢; omega) (',' :: ' ' :: (reprJoin (y :: t2) ++ rest))
            (by simp [isStop])
          have h2 := ihI (y :: t2) (by simp) (by simp at hs ⊢; omega) rest hrest
          rw [show reprJoin (x :: y :: t2) ++ rest =
              reprChars x ++ (',' :: ' ' :: (reprJoin (y :: t2) ++ rest)) from by simp [reprJoin]]
          exact parseItems_more fuel x (y :: t2) rest _ _ h h2
    · intro m hm hs rest hrest
      cases m with
      | nil => exact absurd rfl hm
      | cons e m2 =>
        obtain ⟨k, v⟩ := e
        cases m2 with
        | nil =>
          have hscan : scanStr (escChars k.data ++ squote :: (':' :: ' ' :: (reprChars v ++ rest)))
              = some (k.data, ':' :: ' ' :: (reprChars v ++ rest)) := scanStr_roundtrip _ _
          have hv2 := ihV v (by simp at hs ⊢; omega) rest hrest.1
          rw [show reprEntries [(k, v)] ++ rest =
              squote :: (escChars k.data ++ squote :: (':' :: ' ' :: (reprChars v ++ rest)))
            from by simp [reprEntries, reprStrChars]]
          exact parseEntries_last fuel k.data v _ _ rest hscan hv2 hrest.2
        | cons e2 m3 =>
          have hscan : scanStr (escChars k.data ++ squote ::
              (':' :: ' ' :: (reprChars v ++ (',' :: ' ' :: (reprEntries (e2 :: m3) ++ rest)))))
              = some (k.data,
                  ':' :: ' ' :: (reprChars v ++ (',' :: ' ' :: (reprEntries (e2 :: m3) ++ rest)))) :=
            scanStr_roundtrip _ _
          have hv2 := ihV v (by simp at hs ⊢; omega)
            (',' :: ' ' :: (reprEntries (e2 :: m3) ++ rest)) (by simp [isStop])
          have h3 := ihE (e2 :: m3) (by simp) (by simp at hs ⊢; omega) rest hrest
          rw [show reprEntries ((k, v) :: e2 :: m3) ++ rest =
              squote :: (escChars k.data ++ squote ::
                (':' :: ' ' :: (reprChars v ++ (',' :: ' ' :: (reprEntries (e2 :: m3) ++ rest)))))
            from by simp [reprEntries, reprStrChars]]
          exact parseEntries_more fuel k.data v (e2 :: m3) _ _ _ rest hscan hv2 h3

/-- Python `repr` is injective on modelled values. -/
theorem reprChars_injective {a b : Value} (h : reprChars a = reprChars b) : a = b := by
  have ha := (parse_roundtrip (max (sizeOf a) (sizeOf b))).1 a (le_max_left _ _) []
    (by simp [isStop])
  have hb := (parse_roundtrip (max (sizeOf a) (sizeOf b))).1 b (le_max_right _ _) []
    (by simp [isStop])
  rw [List.append_nil] at ha hb
  rw [h, hb] at ha
  simpa using ha.symm

theorem rank_eq_iff (a b : Value) :
    type_order (typeName a) = type_order (typeName b) ↔ typeName a = typeName b := by
  cases a <;> cases b <;> simp +decide [typeName, type_order]

/-- Two values with the same `str()` rendering and the same runtime type
name are equal: `compare_items` never ties on distinct values. -/
theorem eq_of_pyStr_typeName {a b : Value} (hs : pyStr a = pyStr b)
    (ht : typeName a = typeName b) : a = b := by
  cases a <;> cases b <;>
    (try simp +decide [typeName] at ht) <;>
    (try rfl) <;>
    (try exact congrArg Value.vStr hs) <;>
    (unfold pyStr at hs
     simp only [String.ext_iff] at hs
     simp only [pyStrChars] at hs
     exact reprChars_injective hs)

end Value

instance : IsAntisymm Value pyLe where
  antisymm a b hab hba := by
    rw [pyLe_iff] at hab hba
    rcases hab with h1 | ⟨h1, hr1⟩
    · rcases hba with h2 | ⟨h2, hr2⟩
      · exact absurd h2 (lt_asymm h1)
      · exact absurd (show Value.pyStrChars a = Value.pyStrChars b from
          congrArg String.data h2.symm) (ne_of_lt h1)
    · rcases hba with h2 | ⟨h2, hr2⟩
      · exact absurd (show Value.pyStrChars b = Value.pyStrChars a from
          congrArg String.data h1.symm) (ne_of_lt h2)
      · have hrank : rankOf a = rankOf b := le_antisymm hr1 hr2
        exact Value.eq_of_pyStr_typeName h1 ((Value.rank_eq_iff a b).mp hrank)

/-- The sorted form of a list of values depends only on its multiset of
elements: sorting any permutation gives the same list. -/
theorem pySorted_perm_eq {l1 l2 : List Value} (h : List.Perm l1 l2) :
    pySorted l1 = pySorted l2 :=
  List.eq_of_perm_of_sorted (((pySorted_perm l1).trans h).trans (pySorted_perm l2).symm)
    (pySorted_sorted l1) (pySorted_sorted l2)

/-- Strict key comparison, used to exploit distinctness of dict keys. -/
def fstLt {α : Type} (a b : String × α) : Prop := a.1.data < b.1.data

instance {α : Type} : IsAntisymm (String × α) fstLt where
  antisymm _ _ h1 h2 := absurd h2 (lt_asymm h1)

/-- A sort by key is canonical on entry lists with distinct keys: any two
permutations of the same entries sort to the same list. -/
theorem insertionSort_fstLe_perm_eq {α : Type} {l1 l2 : List (String × α)}
    (h : List.Perm l1 l2) (hnd : (l1.map Prod.fst).Nodup) :
    List.insertionSort fstLe l1 = List.insertionSort fstLe l2 := by
  have key : ∀ l : List (String × α), (l.map Prod.fst).Nodup →
      List.Sorted fstLt (List.insertionSort fstLe l) := by
    intro l hl
    have hs : List.Sorted fstLe (List.insertionSort fstLe l) :=
      List.sorted_insertionSort fstLe l
    have hne : (List.insertionSort fstLe l).Pairwise fun a b => a.1 ≠ b.1 := by
      have hnd2 : ((List.insertionSort fstLe l).map Prod.fst).Nodup :=
        (((List.perm_insertionSort fstLe l).map Prod.fst).nodup_iff).mpr hl
      exact (List.pairwise_map).mp hnd2
    exact (hs.and hne).imp fun hab =>
      lt_of_le_of_ne hab.1 (fun hd => hab.2 (String.ext hd))
  have hnd2 : (l2.map Prod.fst).Nodup := ((h.map Prod.fst).nodup_iff).mp hnd
  exact List.eq_of_perm_of_sorted
    (((List.perm_insertionSort fstLe l1).trans h).trans
      (List.perm_insertionSort fstLe l2).symm)
    (key l1 hnd) (key l2 hnd2)

/-- `data_standardization` is invariant under permutation of a top-level
sequence: the same elements in any order produce the same canonical
string. -/
theorem dataStandardization_perm {l1 l2 : List Value} (h : List.Perm l1 l2) :
    dataStandardization (.vList l1) = dataStandardization (.vList l2) ∧
      dataStandardization (.vTuple l1) = dataStandardization (.vTuple l2) := by
  have hstd : (pySorted l1).map stdC = (pySorted l2).map stdC := by
    rw [pySorted_perm_eq h]
  constructor
  · show Value.vStr ⟨jsonChars (stdC (.vList l1))⟩ = Value.vStr ⟨jsonChars (stdC (.vList l2))⟩
    rw [stdC_vList, stdC_vList, hstd]
  · show Value.vStr ⟨jsonChars (stdC (.vTuple l1))⟩ = Value.vStr ⟨jsonChars (stdC (.vTuple l2))⟩
    rw [stdC_vTuple, stdC_vTuple, hstd]

/-- `data_standardization` is invariant under reordering of the entries of
a top-level dict with distinct keys (the serializer sorts keys). -/
theorem dataStandardization_dict_perm {m1 m2 : List (String × Value)}
    (h : List.Perm m1 m2) (hnd : (m1.map Prod.fst).Nodup) :
    dataStandardization (.vDict m1) = dataStandardization (.vDict m2) := by
  show Value.vStr ⟨jsonChars (stdC (.vDict m1))⟩ = Value.vStr ⟨jsonChars (stdC (.vDict m2))⟩
  rw [stdC_vDict, stdC_vDict, jsonChars, jsonChars,
    jsonEntryPairs_eq_map, jsonEntryPairs_eq_map]
  have hperm : List.Perm
      ((m1.map fun kv => (kv.1, stdC kv.2)).map fun kv => (kv.1, jsonChars kv.2))
      ((m2.map fun kv => (kv.1, stdC kv.2)).map fun kv => (kv.1, jsonChars kv.2)) :=
    (h.map _).map _
  have hnd1 : (((m1.map fun kv => (kv.1, stdC kv.2)).map
      fun kv => (kv.1, jsonChars kv.2)).map Prod.fst).Nodup := by
    simpa [List.map_map, Function.comp] using hnd
  rw [insertionSort_fstLe_perm_eq hperm hnd1]

/-! ### Hashing: SHA-256, MD5, `uuid.uuid3`

`convert_data_to_id` (`data_id.py`) hashes the canonical bytes with
SHA-256 and, for the `uuid` method, feeds `"sha256=" ++ hexdigest` to
`uuid.uuid3(uuid.NAMESPACE_X500, ...)`, which is an MD5-based UUID.
Both digests are implemented below over byte lists (`List Nat`, each
element below 256), with 32-bit words as naturals reduced mod `2^32`. -/

/-- Truncation to a 32-bit word. -/
def w32 (n : Nat) : Nat := n % 4294967296

/-- Right rotation of a 32-bit word. -/
def rotr32 (x n : Nat) : Nat := w32 ((x >>> n) ||| (x <<< (32 - n)))

/-- Left rotation of a 32-bit word. -/
def rotl32 (x n : Nat) : Nat := w32 ((x <<< n) ||| (x >>> (32 - n)))

/-- Split a byte list into its 64-byte blocks. -/
def toBlocks64 (bs : List Nat) : List (List Nat) :=
  (List.range ((bs.length + 63) / 64)).map fun i => (bs.drop (64 * i)).take 64

/-- Big-endian 4-byte words of a block. -/
def wordsBE : List Nat → List Nat
  | b0 :: b1 :: b2 :: b3 :: r => (((b0 * 256 + b1) * 256 + b2) * 256 + b3) :: wordsBE r
  | _ => []

/-- Little-endian 4-byte words of a block. -/
def wordsLE : List Nat → List Nat
  | b0 :: b1 :: b2 :: b3 :: r => (((b3 * 256 + b2) * 256 + b1) * 256 + b0) :: wordsLE r
  | _ => []

/-- Big-endian byte rendering of an integer, fixed width. -/
def bytesBE (width n : Nat) : List Nat :=
  (List.range width).map fun i => n >>> (8 * (width - 1 - i)) % 256

/-- Little-endian byte rendering of an integer, fixed width. -/
def bytesLE (width n : Nat) : List Nat :=
  (List.range width).map fun i => n >>> (8 * i) % 256

/-- Merkle–Damgård padding shared by SHA-256 and MD5: a `0x80` byte, zero
bytes to 56 mod 64, then the bit length in 8 bytes (big-endian for SHA-256,
little-endian for MD5). -/
def mdPad (lenBytes : Nat → List Nat) (msg : List Nat) : List Nat :=
  msg ++ 128 :: List.replicate ((119 - msg.length % 64) % 64) 0 ++ lenBytes (8 * msg.length)

namespace SHA256

/-- The 64 SHA-256 round constants. -/
def K : List Nat :=
  [1116352408, 1899447441, 3049323471, 3921009573, 961987163, 1508970993,
   2453635748, 2870763221, 3624381080, 310598401, 607225278, 1426881987,
   1925078388, 2162078206, 2614888103, 3248222580, 3835390401, 4022224774,
   264347078, 604807628, 770255983, 1249150122, 1555081692, 1996064986,
   2554220882, 2821834349, 2952996808, 3210313671, 3336571891, 3584528711,
   113926993, 338241895, 666307205, 773529912, 1294757372, 1396182291,
   1695183700, 1986661051, 2177026350, 2456956037, 2730485921, 2820302411,
   3259730800, 3345764771, 3516065817, 3600352804, 4094571909, 275423344,
   430227734, 506948616, 659060556, 883997877, 958139571, 1322822218,
   1537002063, 1747873779, 1955562222, 2024104815, 2227730452, 2361852424,
   2428436474, 2756734187, 3204031479, 3329325298]

/-- The SHA-256 initial hash value. -/
def H0 : List Nat :=
  [1779033703, 3144134277, 1013904242, 2773480762,
   1359893119, 2600822924, 528734635, 1541459225]

/-- Message-schedule extension of the 16 block words to 64. -/
def schedule (w : List Nat) : List Nat :=
  (List.range 48).foldl
    (fun w i =>
      let a := w.getD i 0
      let b := w.getD (i + 1) 0
      let c := w.getD (i + 9) 0
      let d := w.getD (i + 14) 0
      let s0 := (rotr32 b 7) ^^^ (rotr32 b 18) ^^^ (b >>> 3)
      let s1 := (rotr32 d 17) ^^^ (rotr32 d 19) ^^^ (d >>> 10)
      w ++ [w32 (a + s0 + c + s1)])
    w

/-- One SHA-256 compression round. -/
def round (st : List Nat) (kw : Nat) : List Nat :=
  let a := st.getD 0 0
  let b := st.getD 1 0
  let c := st.getD 2 0
  let d := st.getD 3 0
  let e := st.getD 4 0
  let f := st.getD 5 0
  let g := st.getD 6 0
  let h := st.getD 7 0
  let s1 := (rotr32 e 6) ^^^ (rotr32 e 11) ^^^ (rotr32 e 25)
  let ch := (e &&& f) ^^^ ((4294967295 - e) &&& g)
  let t1 := w32 (h + s1 + ch + kw)
  let s0 := (rotr32 a 2) ^^^ (rotr32 a 13) ^^^ (rotr32 a 22)
  let mj := (a &&& b) ^^^ (a &&& c) ^^^ (b &&& c)
  let t2 := w32 (s0 + mj)
  [w32 (t1 + t2), a, b, c, w32 (d + t1), e, f, g]

/-- SHA-256 compression of one 64-byte block into the running hash. -/
def compress (h : List Nat) (block : List Nat) : List Nat :=
  let w := schedule (wordsBE block)
  let st := (K.zipWith (fun k wi => w32 (k + wi)) w).foldl round h
  h.zipWith (fun x y => w32 (x + y)) st

/-- The SHA-256 digest (32 bytes) of a byte list. -/
def digest (msg : List Nat) : List Nat :=
  ((toBlocks64 (mdPad (bytesBE 8) msg)).foldl compress H0).flatMap (bytesBE 4)

end SHA256

namespace MD5

/-- The 64 MD5 sine-table constants. -/
def K : List Nat :=
  [3614090360, 3905402710, 606105819, 3250441966, 4118548399, 1200080426,
   2821735955, 4249261313, 1770035416, 2336552879, 4294925233, 2304563134,
   1804603682, 4254626195, 2792965006, 1236535329, 4129170786, 3225465664,
   643717713, 3921069994, 3593408605, 38016083, 3634488961, 3889429448,
   568446438, 3275163606, 4107603335, 1163531501, 2850285829, 4243563512,
   1735328473, 2368359562, 4294588738, 2272392833, 1839030562, 4259657740,
   2763975236, 1272893353, 4139469664, 3200236656, 681279174, 3936430074,
   3572445317, 76029189, 3654602809, 3873151461, 530742520, 3299628645,
   4096336452, 1126891415, 2878612391, 4237533241, 1700485571, 2399980690,
   4293915773, 2240044497, 1873313359, 4264355552, 2734768916, 1309151649,
   4149444226, 3174756917, 718787259, 3951481745]

/-- The per-round left-rotation amounts. -/
def S : List Nat :=
  [7, 12, 17, 22, 7, 12, 17, 22, 7, 12, 17, 22, 7, 12, 17, 22,
   5, 9, 14, 20, 5, 9, 14, 20, 5, 9, 14, 20, 5, 9, 14, 20,
   4, 11, 16, 23, 4, 11, 16, 23, 4, 11, 16, 23, 4, 11, 16, 23,
   6, 10, 15, 21, 6, 10, 15, 21, 6, 10, 15, 21, 6, 10, 15, 21]

/-- Bitwise complement within 32 bits. -/
def not32 (x : Nat) : Nat := 4294967295 - x

/-- One MD5 operation (round `i` of 64) on state `[a, b, c, d]` with the
block words `m`. -/
def op (m : List Nat) (st : List Nat) (i : Nat) : List Nat :=
  let a := st.getD 0 0
  let b := st.getD 1 0
  let c := st.getD 2 0
  let d := st.getD 3 0
  let f :=
    if i < 16 then (b &&& c) ||| (not32 b &&& d)
    else if i < 32 then (d &&& b) ||| (not32 d &&& c)
    else if i < 48 then b ^^^ c ^^^ d
    else c ^^^ (b ||| not32 d)
  let g :=
    if i < 16 then i
    else if i < 32 then (5 * i + 1) % 16
    else if i < 48 then (3 * i + 5) % 16
    else (7 * i) % 16
  let t := w32 (a + f + K.getD i 0 + m.getD g 0)
  [d, w32 (b + rotl32 t (S.getD i 0)), b, c]

/-- MD5 compression of one 64-byte block into the running state. -/
def compress (st : List Nat) (block : List Nat) : List Nat :=
  let m := wordsLE block
  let st2 := (List.range 64).foldl (op m) st
  st.zipWith (fun x y => w32 (x + y)) st2

/-- The MD5 digest (16 bytes) of a byte list. -/
def digest (msg : List Nat) : List Nat :=
  ((toBlocks64 (mdPad (bytesLE 8) msg)).foldl compress
      [1732584193, 4023233417, 2562383102, 271733878]).flatMap (bytesLE 4)

end MD5

/-- Lowercase hex rendering of a byte list. -/
def hexOfBytes (bs : List Nat) : List Char :=
  bs.flatMap fun b => [hexDigitChar (b / 16), hexDigitChar (b % 16)]

/-- `hashlib.sha256(bs).hexdigest()`. -/
def sha256Hex (bs : List Nat) : String := ⟨hexOfBytes (SHA256.digest bs)⟩

/-- UTF-8 encoding of one character. -/
def utf8Char (c : Char) : List Nat :=
  let n := c.toNat
  if n < 128 then [n]
  else if n < 2048 then [192 ||| (n >>> 6), 128 ||| (n &&& 63)]
  else if n < 65536 then
    [224 ||| (n >>> 12), 128 ||| ((n >>> 6) &&& 63), 128 ||| (n &&& 63)]
  else
    [240 ||| (n >>> 18), 128 ||| ((n >>> 12) &&& 63),
     128 ||| ((n >>> 6) &&& 63), 128 ||| (n &&& 63)]

/-- `s.encode('utf-8')` as a byte list. -/
def utf8Encode (s : String) : List Nat := s.data.flatMap utf8Char

/-- The bytes of `uuid.NAMESPACE_X500`
(`6ba7b814-9dad-11d1-80b4-00c04fd430c8`). -/
def NAMESPACE_X500 : List Nat :=
  [0x6b, 0xa7, 0xb8, 0x14, 0x9d, 0xad, 0x11, 0xd1,
   0x80, 0xb4, 0x00, 0xc0, 0x4f, 0xd4, 0x30, 0xc8]

/-- Format 16 UUID bytes as the canonical 8-4-4-4-12 hyphenated string. -/
def uuidFormat (bs : List Nat) : String :=
  ⟨hexOfBytes (bs.take 4) ++ '-' :: hexOfBytes ((bs.drop 4).take 2) ++
    '-' :: hexOfBytes ((bs.drop 6).take 2) ++ '-' :: hexOfBytes ((bs.drop 8).take 2) ++
    '-' :: hexOfBytes (bs.drop 10)⟩

/-- `uuid.uuid3(namespace, name)`: the MD5 of the namespace bytes followed
by the UTF-8 name bytes, with the version field forced to 3 and the variant
field to RFC 4122. -/
def uuid3 (ns : List Nat) (name : List Nat) : String :=
  let d := MD5.digest (ns ++ name)
  let d := d.set 6 ((d.getD 6 0 &&& 15) ||| 48)
  let d := d.set 8 ((d.getD 8 0 &&& 63) ||| 128)
  uuidFormat d

/-- `convert_text_to_uuid` from `data_id.py`:
`str(uuid.uuid3(uuid.NAMESPACE_X500, input_str))`. -/
def convert_text_to_uuid (input_str : String) : String :=
  uuid3 NAMESPACE_X500 (utf8Encode input_str)

/-- The inputs accepted by `convert_data_to_id`: byte data, or any modelled
Python value. -/
inductive PyData where
  | bytes (bs : List Nat)
  | val (v : Value)
deriving DecidableEq

/-- `data_standardization` on a `convert_data_to_id` input: byte data is
not a list, tuple or dict and passes through unchanged. -/
def dataStandardizationP : PyData → PyData
  | .bytes bs => .bytes bs
  | .val v => .val (dataStandardization v)

/-- `convert_data_to_id` from `data_id.py`: standardize (a deep copy of)
the input, turn a textual result into UTF-8 bytes (byte data is used
directly; anything else yields absence), hash with SHA-256, and dispatch on
`method` (an unrecognized method falls off the end of the function,
returning absence). -/
def convert_data_to_id (data : PyData) (method : String) : Option String :=
  let data_std := dataStandardizationP data
  match data_std with
  | .bytes bs =>
      let hex := sha256Hex bs
      if method = "uuid" then some (convert_text_to_uuid ("sha256=" ++ hex))
      else if method = "sha256" then some hex
      else none
  | .val (.vStr s) =>
      let hex := sha256Hex (utf8Encode s)
      if method = "uuid" then some (convert_text_to_uuid ("sha256=" ++ hex))
      else if method = "sha256" then some hex
      else none
  | _ => none

/-! ### In-place effects of `data_standardization` on the caller's value

`data_standardization` receives the caller's object directly (the deep copy
is made by its caller `convert_data_to_id`, not by `data_standardization`
itself).  `sort_list` copies the sequence it is given (`sorted(list(d))`),
so a sequence object's own slots are never written; but `sort_dict`
mutates dicts in place: `d[k] = sort_list(d[k])` replaces every sequence
value of a dict with the fully standardized tuple returned by `sort_list`,
and dict values are recursively mutated.  The functions below compute the
state of the caller's (tree-shaped, unaliased) value after the call. -/

mutual

/-- Post-call state of a value reached through sequence containers. -/
def seqEffV : Value → Value
  | .vList l => .vList (seqEff l)
  | .vTuple l => .vTuple (seqEff l)
  | .vDict m => .vDict (dictEff m)
  | v => v

/-- Post-call state of the elements of a sequence passed to `sort_list`:
the slots are untouched (the sort works on a copy), the elements are
recursively affected. -/
def seqEff : List Value → List Value
  | [] => []
  | x :: t => seqEffV x :: seqEff t

/-- Post-call state of one dict value under `sort_dict`: a sequence value
is replaced by the standardized tuple `sort_list` returns, a dict value is
mutated recursively, any other value is untouched. -/
def dictEffVal : Value → Value
  | .vList l => .vTuple ((List.insertionSort pairLe (stdPairs l)).map Prod.snd)
  | .vTuple l => .vTuple ((List.insertionSort pairLe (stdPairs l)).map Prod.snd)
  | .vDict m => .vDict (dictEff m)
  | v => v

/-- Post-call state of the entries of a dict passed to `sort_dict`. -/
def dictEff : List (String × Value) → List (String × Value)
  | [] => []
  | (k, v) :: t => (k, dictEffVal v) :: dictEff t

end

/-- A dict value that is a sequence is replaced by exactly the standardized
form `sort_list` returns. -/
theorem dictEffVal_seq (l : List Value) :
    dictEffVal (.vList l) = stdC (.vList l) ∧ dictEffVal (.vTuple l) = stdC (.vTuple l) :=
  ⟨rfl, rfl⟩

/-- The state of the caller-owned input value after
`data_standardization(data)` returns. -/
def dataStandardizationEffect (data : Value) : Value := seqEffV data

mutual

/-- No dict reachable inside the value (through any chain of containers)
has a sequence (list or tuple) value. -/
def dictSeqFree : Value → Bool
  | .vList l => seqAllFree l
  | .vTuple l => seqAllFree l
  | .vDict m => entriesFree m
  | _ => true

/-- `dictSeqFree` for every element of a sequence. -/
def seqAllFree : List Value → Bool
  | [] => true
  | x :: t => dictSeqFree x && seqAllFree t

/-- A permissible dict value: not a sequence, and recursively free of
dict-held sequences. -/
def entryValFree : Value → Bool
  | .vList _ => false
  | .vTuple _ => false
  | .vDict m => entriesFree m
  | _ => true

/-- `entryValFree` for every value of a dict. -/
def entriesFree : List (String × Value) → Bool
  | [] => true
  | (_, v) :: t => entryValFree v && entriesFree t

end

mutual

theorem seqEffV_eq : ∀ v : Value, dictSeqFree v = true → seqEffV v = v
  | .vInt _, _ => rfl
  | .vStr _, _ => rfl
  | .vBool _, _ => rfl
  | .vNone, _ => rfl
  | .vList l, h => by
      rw [seqEffV, seqEff_eq l (by simpa [dictSeqFree] using h)]
  | .vTuple l, h => by
      rw [seqEffV, seqEff_eq l (by simpa [dictSeqFree] using h)]
  | .vDict m, h => by
      rw [seqEffV, dictEff_eq m (by simpa [dictSeqFree] using h)]

theorem seqEff_eq : ∀ l : List Value, seqAllFree l = true → seqEff l = l
  | [], _ => rfl
  | x :: t, h => by
      have h2 : dictSeqFree x = true ∧ seqAllFree t = true := by
        simpa [seqAllFree] using h
      rw [seqEff, seqEffV_eq x h2.1, seqEff_eq t h2.2]

theorem dictEffVal_eq : ∀ v : Value, entryValFree v = true → dictEffVal v = v
  | .vInt _, _ => rfl
  | .vStr _, _ => rfl
  | .vBool _, _ => rfl
  | .vNone, _ => rfl
  | .vList _, h => by simp [entryValFree] at h
  | .vTuple _, h => by simp [entryValFree] at h
  | .vDict m, h => by
      rw [dictEffVal, dictEff_eq m (by simpa [entryValFree] using h)]

theorem dictEff_eq : ∀ m : List (String × Value), entriesFree m = true → dictEff m = m
  | [], _ => rfl
  | (k, v) :: t, h => by
      have h2 : entryValFree v = true ∧ entriesFree t = true := by
        simpa [entriesFree] using h
      rw [dictEff, dictEffVal_eq v h2.1, dictEff_eq t h2.2]

end

/-! ### `find_edges_connections` (`utils.py`)

The grouping routine is modelled over rows of two optional integer cells
(`None`/`NaN` is the missing sentinel; `is_empty` is true exactly on the
missing cells for integer-valued data).  The igraph calls
(`Graph.DataFrame(edges, directed=False, vertices=vertices)` followed by
`components(mode='strong')`, which on an undirected graph are the ordinary
connected components) are modelled by a partition refinement: vertices
start as singletons and every edge merges the sets containing its
endpoints; components are then numbered in order of their first vertex in
the sorted vertex list, and each component lists its members in sorted
order — matching igraph's component enumeration by lowest vertex id. -/

/-- `is_empty` on an optional-integer cell: missing cells are empty,
integers never are (the digits of `str(i)` survive the cleaning and are
not in the empty-value list). -/
def cell_is_empty : Option Int → Bool
  | none => true
  | some _ => false

/-- The non-missing values of a row, left to right. -/
def presentCells (r : Option Int × Option Int) : List Int :=
  (match r.1 with | some a => [a] | none => []) ++
    (match r.2 with | some b => [b] | none => [])

/-- Python `sorted` on integers. -/
def sortAsc (l : List Int) : List Int := List.insertionSort (· ≤ ·) l

/-- `itertools.combinations(e, 2)` in generation order. -/
def pairsComb : List Int → List (Int × Int)
  | [] => []
  | x :: t => (t.map fun y => (x, y)) ++ pairsComb t

/-- Deduplication keeping first occurrences (`DataFrame.drop_duplicates`,
and the repo's own `drop_duplicates_from_list`). -/
def pyDedupAux {α : Type} [DecidableEq α] : List α → List α → List α
  | _, [] => []
  | seen, x :: t =>
      if x ∈ seen then pyDedupAux seen t else x :: pyDedupAux (x :: seen) t

/-- Deduplication keeping first occurrences. -/
def pyDedup {α : Type} [DecidableEq α] (l : List α) : List α := pyDedupAux [] l

/-- `sorted(set(xs))` for integers. -/
def sortedSet (l : List Int) : List Int := sortAsc (pyDedup l)

/-- Do `x` and `y` share a set of the partition? -/
def togetherB (P : List (List Int)) (x y : Int) : Bool :=
  P.any fun S => S.contains x && S.contains y

/-- Merge the partition sets touching either endpoint of an edge. -/
def addEdge (P : List (List Int)) (e : Int × Int) : List (List Int) :=
  (P.filter fun S => S.contains e.1 || S.contains e.2).flatten ::
    P.filter fun S => !(S.contains e.1 || S.contains e.2)

/-- The partition of the vertices into connected components: vertices start
as singletons, every edge merges the sets containing its endpoints. -/
def buildPartition (vertices : List Int) (edges : List (Int × Int)) : List (List Int) :=
  edges.foldl addEdge (vertices.map fun v => [v])

/-- The representative of a vertex: the first vertex (in sorted vertex
order) of its component. -/
def repOf (vertices : List Int) (P : List (List Int)) (v : Int) : Int :=
  (vertices.find? fun w => togetherB P v w).getD v

/-- Surviving rows: `df.dropna(how='all')`. -/
def fecRows2 (rows : List (Option Int × Option Int)) : List (Option Int × Option Int) :=
  rows.filter fun r => !(cell_is_empty r.1 && cell_is_empty r.2)

/-- `edges_sets`: the sorted non-missing values of each surviving row. -/
def fecEdgesSets (rows : List (Option Int × Option Int)) : List (List Int) :=
  (fecRows2 rows).map fun r => sortAsc (presentCells r)

/-- `edges_s` before subtraction: sorted deduplicated singleton values. -/
def fecSingles0 (rows : List (Option Int × Option Int)) : List Int :=
  sortedSet (((fecEdgesSets rows).filter fun e => e.length = 1).flatten)

/-- `edges_c`: all pairwise combinations from multi-value rows. -/
def fecEdgesC (rows : List (Option Int × Option Int)) : List (Int × Int) :=
  ((fecEdgesSets rows).filter fun e => 1 < e.length).flatMap pairsComb

/-- `vertices`: the sorted set of edge endpoints. -/
def fecVertices (rows : List (Option Int × Option Int)) : List Int :=
  sortedSet ((fecEdgesC rows).flatMap fun e => [e.1, e.2])

/-- `edges`: the deduplicated edge list. -/
def fecEdges (rows : List (Option Int × Option Int)) : List (Int × Int) :=
  pyDedup (fecEdgesC rows)

/-- The component partition of the vertices. -/
def fecP (rows : List (Option Int × Option Int)) : List (List Int) :=
  buildPartition (fecVertices rows) (fecEdges rows)

/-- The component representatives in discovery (sorted-vertex) order:
their positions are the igraph component indices. -/
def fecReps (rows : List (Option Int × Option Int)) : List Int :=
  pyDedup ((fecVertices rows).map (repOf (fecVertices rows) (fecP rows)))

/-- The `connections` table: one `(component index, member)` row per
vertex, grouped by component, members in sorted order. -/
def fecConnections (rows : List (Option Int × Option Int)) : List (Nat × Int) :=
  (fecReps rows).enum.flatMap fun p =>
    ((fecVertices rows).filter fun v =>
        repOf (fecVertices rows) (fecP rows) v = p.2).map fun v => (p.1, v)

/-- The singleton values not absorbed into a component. -/
def fecSingles (rows : List (Option Int × Option Int)) : List Int :=
  (fecSingles0 rows).filter fun v => !(((fecConnections rows).map Prod.snd).contains v)

/-- `find_edges_connections` from `utils.py`: drop fully missing rows,
split each row into its non-missing sorted values, collect singleton
observations and pairwise edges, deduplicate, compute connected components
of the undirected graph over the sorted vertex set, and append the
remaining singleton groups numbered after the last component id.  The
result rows are `(group_id, value)`. -/
def find_edges_connections (rows : List (Option Int × Option Int)) : List (Nat × Int) :=
  if (fecEdges rows).isEmpty then
    (fecSingles0 rows).enum
  else
    fecConnections rows ++
      ((fecSingles rows).enum.map fun p => ((fecReps rows).length + p.1, p.2))

/-- The group id assigned to a value by the output table: the `group_id` of
the first output row carrying that value. -/
def groupOf (out : List (Nat × Int)) (v : Int) : Option Nat :=
  (out.find? fun r => r.2 = v).map Prod.fst

/-- The member list of each component, paired with its component index:
what `itemgetter(*c[i])(g.vs["name"])` reads for component `i`. -/
def fecMembers (rows : List (Option Int × Option Int)) : List (Nat × List Int) :=
  (fecReps rows).enum.map fun p =>
    (p.1, (fecVertices rows).filter fun v =>
        repOf (fecVertices rows) (fecP rows) v = p.2)

/-- The `connections` comprehension with the source's error path made
explicit: on a single-member component `itemgetter(*c[i])` returns the bare
value instead of a tuple, so `for x in ...` over it raises `TypeError` and
the comprehension aborts (`none`). -/
def fecConnectionsE (rows : List (Option Int × Option Int)) :
    Option (List (Nat × Int)) :=
  if (fecMembers rows).all fun q => q.2.length != 1 then
    some ((fecMembers rows).flatMap fun q => q.2.map fun v => (q.1, v))
  else none

/-- `find_edges_connections` with the singleton-component crash modelled:
`none` is the `TypeError` raised while building `connections` (reachable
through an isolated self-pair row, whose self-loop edge yields a
one-vertex component). -/
def find_edges_connectionsE (rows : List (Option Int × Option Int)) :
    Option (List (Nat × Int)) :=
  if (fecEdges rows).isEmpty then
    some ((fecSingles0 rows).enum)
  else
    match fecConnectionsE rows with
    | none => none
    | some conns =>
        some (conns ++
          ((fecSingles rows).enum.map fun p => ((fecReps rows).length + p.1, p.2)))

/-! #### Correctness lemmas for the grouping model -/

theorem mem_pyDedupAux {α : Type} [DecidableEq α] (seen l : List α) (v : α) :
    v ∈ pyDedupAux seen l ↔ v ∈ l ∧ v ∉ seen := by
  induction l generalizing seen with
  | nil => simp [pyDedupAux]
  | cons x t ih =>
    by_cases hx : x ∈ seen
    · rw [pyDedupAux, if_pos hx, ih]
      constructor
      · rintro ⟨h1, h2⟩
        exact ⟨List.mem_cons_of_mem _ h1, h2⟩
      · rintro ⟨h1, h2⟩
        rcases List.mem_cons.mp h1 with rfl | h1
        · exact absurd hx h2
        · exact ⟨h1, h2⟩
    · rw [pyDedupAux, if_neg hx]
      simp only [List.mem_cons, ih]
      constructor
      · rintro (rfl | ⟨h1, h2⟩)
        · exact ⟨Or.inl rfl, hx⟩
        · simp only [List.mem_cons, not_or] at h2
          exact ⟨Or.inr h1, h2.2⟩
      · rintro ⟨rfl | h1, h2⟩
        · exact Or.inl rfl
        · by_cases hvx : v = x
          · exact Or.inl hvx
          · exact Or.inr ⟨h1, by simp [hvx, h2]⟩

theorem mem_pyDedup {α : Type} [DecidableEq α] (l : List α) (v : α) :
    v ∈ pyDedup l ↔ v ∈ l := by
  simp [pyDedup, mem_pyDedupAux]

theorem nodup_pyDedupAux {α : Type} [DecidableEq α] (seen l : List α) :
    (pyDedupAux seen l).Nodup := by
  induction l generalizing seen with
  | nil => simp [pyDedupAux]
  | cons x t ih =>
    by_cases hx : x ∈ seen
    · rw [pyDedupAux, if_pos hx]
      exact ih seen
    · rw [pyDedupAux, if_neg hx]
      refine List.nodup_cons.mpr ⟨?_, ih (x :: seen)⟩
      intro hmem
      exact ((mem_pyDedupAux _ _ _).mp hmem).2 (List.mem_cons_self x seen)

theorem nodup_pyDedup {α : Type} [DecidableEq α] (l : List α) : (pyDedup l).Nodup :=
  nodup_pyDedupAux [] l

theorem mem_sortedSet (l : List Int) (v : Int) : v ∈ sortedSet l ↔ v ∈ l := by
  rw [sortedSet, sortAsc, (List.perm_insertionSort _ _).mem_iff, mem_pyDedup]

theorem nodup_sortedSet (l : List Int) : (sortedSet l).Nodup :=
  ((List.perm_insertionSort _ _).nodup_iff).mpr (nodup_pyDedup l)

/-- Every vertex lies in some set of the partition. -/
def Covers (P : List (List Int)) (v : Int) : Prop := ∃ S ∈ P, v ∈ S

/-- The sets of the partition are pairwise disjoint. -/
def PDisjoint (P : List (List Int)) : Prop :=
  P.Pairwise fun S T => ∀ v : Int, v ∈ S → v ∈ T → False

theorem togetherB_iff (P : List (List Int)) (x y : Int) :
    togetherB P x y = true ↔ ∃ S ∈ P, x ∈ S ∧ y ∈ S := by
  simp [togetherB, List.any_eq_true]

theorem togetherB_symm (P : List (List Int)) (x y : Int) :
    togetherB P x y = togetherB P y x := by
  rw [Bool.eq_iff_iff, togetherB_iff, togetherB_iff]
  constructor <;> rintro ⟨S, h1, h2, h3⟩ <;> exact ⟨S, h1, h3, h2⟩

theorem togetherB_refl {P : List (List Int)} {v : Int} (h : Covers P v) :
    togetherB P v v = true := by
  obtain ⟨S, hS, hv⟩ := h
  exact (togetherB_iff _ _ _).mpr ⟨S, hS, hv, hv⟩

theorem togetherB_trans {P : List (List Int)} {x y z : Int} (hdis : PDisjoint P)
    (h1 : togetherB P x y = true) (h2 : togetherB P y z = true) :
    togetherB P x z = true := by
  obtain ⟨S1, hS1, hx1, hy1⟩ := (togetherB_iff _ _ _).mp h1
  obtain ⟨S2, hS2, hy2, hz2⟩ := (togetherB_iff _ _ _).mp h2
  by_cases heq : S1 = S2
  · exact (togetherB_iff _ _ _).mpr ⟨S1, hS1, hx1, heq ▸ hz2⟩
  · have hsym : Symmetric fun S T : List Int => ∀ v : Int, v ∈ S → v ∈ T → False :=
      fun S T h v hvT hvS => h v hvS hvT
    exact absurd hy2 fun hy2 => hdis.forall hsym hS1 hS2 heq y hy1 hy2

theorem covers_addEdge {P : List (List Int)} {v : Int} (e : Int × Int)
    (h : Covers P v) : Covers (addEdge P e) v := by
  obtain ⟨S, hS, hv⟩ := h
  by_cases ht : (S.contains e.1 || S.contains e.2) = true
  · refine ⟨(P.filter fun S => S.contains e.1 || S.contains e.2).flatten,
      List.mem_cons_self _ _, ?_⟩
    exact List.mem_flatten.mpr ⟨S, List.mem_filter.mpr ⟨hS, ht⟩, hv⟩
  · exact ⟨S, List.mem_cons_of_mem _
      (List.mem_filter.mpr ⟨hS, by simpa using ht⟩), hv⟩

theorem together_mono_addEdge {P : List (List Int)} {x y : Int} (e : Int × Int)
    (h : togetherB P x y = true) : togetherB (addEdge P e) x y = true := by
  obtain ⟨S, hS, hx, hy⟩ := (togetherB_iff _ _ _).mp h
  by_cases ht : (S.contains e.1 || S.contains e.2) = true
  · refine (togetherB_iff _ _ _).mpr
      ⟨(P.filter fun S => S.contains e.1 || S.contains e.2).flatten,
        List.mem_cons_self _ _, ?_, ?_⟩
    · exact List.mem_flatten.mpr ⟨S, List.mem_filter.mpr ⟨hS, ht⟩, hx⟩
    · exact List.mem_flatten.mpr ⟨S, List.mem_filter.mpr ⟨hS, ht⟩, hy⟩
  · exact (togetherB_iff _ _ _).mpr ⟨S, List.mem_cons_of_mem _
      (List.mem_filter.mpr ⟨hS, by simpa using ht⟩), hx, hy⟩

theorem together_addEdge_self {P : List (List Int)} (e : Int × Int)
    (h1 : Covers P e.1) (h2 : Covers P e.2) :
    togetherB (addEdge P e) e.1 e.2 = true := by
  obtain ⟨S1, hS1, hv1⟩ := h1
  obtain ⟨S2, hS2, hv2⟩ := h2
  refine (togetherB_iff _ _ _).mpr
    ⟨(P.filter fun S => S.contains e.1 || S.contains e.2).flatten,
      List.mem_cons_self _ _, ?_, ?_⟩
  · exact List.mem_flatten.mpr ⟨S1, List.mem_filter.mpr ⟨hS1, by simp [hv1]⟩, hv1⟩
  · exact List.mem_flatten.mpr ⟨S2, List.mem_filter.mpr ⟨hS2, by simp [hv2]⟩, hv2⟩

theorem pdisjoint_addEdge {P : List (List Int)} (e : Int × Int)
    (h : PDisjoint P) : PDisjoint (addEdge P e) := by
  have hsym : Symmetric fun S T : List Int => ∀ v : Int, v ∈ S → v ∈ T → False :=
    fun S T h v hvT hvS => h v hvS hvT
  refine List.pairwise_cons.mpr ⟨?_, ?_⟩
  · intro T hT v hvf hvT
    obtain ⟨S, hSf, hvS⟩ := List.mem_flatten.mp hvf
    have hS := List.mem_filter.mp hSf
    have hT2 := List.mem_filter.mp hT
    by_cases heq : S = T
    · rw [heq] at hS
      have hT3 : e.1 ∉ T ∧ e.2 ∉ T := by simpa using hT2.2
      rcases (by simpa using hS.2 : e.1 ∈ T ∨ e.2 ∈ T) with hc | hc
      · exact hT3.1 hc
      · exact hT3.2 hc
    · exact h.forall hsym hS.1 hT2.1 heq v hvS hvT
  · exact h.sublist (List.filter_sublist _)

theorem covers_foldl {P : List (List Int)} {v : Int} (es : List (Int × Int))
    (h : Covers P v) : Covers (es.foldl addEdge P) v := by
  induction es generalizing P with
  | nil => exact h
  | cons e es ih => exact ih (covers_addEdge e h)

theorem together_mono_foldl {P : List (List Int)} {x y : Int} (es : List (Int × Int))
    (h : togetherB P x y = true) : togetherB (es.foldl addEdge P) x y = true := by
  induction es generalizing P with
  | nil => exact h
  | cons e es ih => exact ih (together_mono_addEdge e h)

theorem pdisjoint_foldl {P : List (List Int)} (es : List (Int × Int))
    (h : PDisjoint P) : PDisjoint (es.foldl addEdge P) := by
  induction es generalizing P with
  | nil => exact h
  | cons e es ih => exact ih (pdisjoint_addEdge e h)

theorem together_edge_foldl {P : List (List Int)} {e : Int × Int} (es : List (Int × Int))
    (he : e ∈ es) (h1 : Covers P e.1) (h2 : Covers P e.2) :
    togetherB (es.foldl addEdge P) e.1 e.2 = true := by
  induction es generalizing P with
  | nil => simp at he
  | cons e2 es ih =>
    rcases List.mem_cons.mp he with rfl | he
    · exact together_mono_foldl es (together_addEdge_self e h1 h2)
    · exact ih he (covers_addEdge e2 h1) (covers_addEdge e2 h2)

theorem covers_buildPartition {vertices : List Int} {v : Int}
    (edges : List (Int × Int)) (hv : v ∈ vertices) :
    Covers (buildPartition vertices edges) v :=
  covers_foldl edges ⟨[v], List.mem_map_of_mem _ hv, List.mem_singleton_self v⟩

theorem pdisjoint_buildPartition {vertices : List Int}
    (edges : List (Int × Int)) (hnd : vertices.Nodup) :
    PDisjoint (buildPartition vertices edges) := by
  refine pdisjoint_foldl edges ?_
  refine (List.pairwise_map).mpr (hnd.imp ?_)
  intro a b hne v hva hvb
  rw [List.mem_singleton] at hva hvb
  exact hne (hva ▸ hvb ▸ rfl)

theorem together_buildPartition_edge {vertices : List Int} {e : Int × Int}
    {edges : List (Int × Int)} (he : e ∈ edges)
    (h1 : e.1 ∈ vertices) (h2 : e.2 ∈ vertices) :
    togetherB (buildPartition vertices edges) e.1 e.2 = true :=
  together_edge_foldl edges he
    ⟨[e.1], List.mem_map_of_mem _ h1, List.mem_singleton_self _⟩
    ⟨[e.2], List.mem_map_of_mem _ h2, List.mem_singleton_self _⟩

theorem find?_congr_pred {α : Type} (p q : α → Bool) (l : List α)
    (h : ∀ x ∈ l, p x = q x) : l.find? p = l.find? q := by
  induction l with
  | nil => rfl
  | cons x t ih =>
    rw [List.find?_cons, List.find?_cons, h x (List.mem_cons_self _ _)]
    split
    · rfl
    · exact ih fun y hy => h y (List.mem_cons_of_mem _ hy)

/-- Vertices sharing a component share a representative. -/
theorem repOf_eq_of_together {vertices : List Int} {P : List (List Int)} {a b : Int}
    (hdis : PDisjoint P) (ha : a ∈ vertices) (hab : togetherB P a b = true) :
    repOf vertices P a = repOf vertices P b := by
  unfold repOf
  have hpred : ∀ w ∈ vertices, (togetherB P a w) = (togetherB P b w) := by
    intro w _
    rw [Bool.eq_iff_iff]
    constructor
    · intro haw
      exact togetherB_trans hdis (togetherB_symm P a b ▸ hab) haw
    · intro hbw
      exact togetherB_trans hdis hab hbw
  rw [find?_congr_pred _ _ _ hpred]
  cases hfind : vertices.find? fun w => togetherB P b w with
  | none =>
    have hnone := List.find?_eq_none.mp hfind a ha
    exact absurd (togetherB_symm P a b ▸ hab) (by simpa using hnone)
  | some w => rfl

theorem find_self_mem {v : Int} {l : List Int} (hv : v ∈ l) :
    (l.find? fun w => w = v) = some v := by
  induction l with
  | nil => simp at hv
  | cons x t ih =>
    rw [List.find?_cons]
    split
    · rename_i h
      rw [show x = v from by simpa using h]
    · rename_i h
      rcases List.mem_cons.mp hv with rfl | hv2

      · simp at h
      · exact ih hv2

theorem find_snd_isSome {x : Int} (L : List (Nat × Int)) (h : x ∈ L.map Prod.snd) :
    (L.find? fun p => p.2 = x).isSome := by
  induction L with
  | nil => simp at h
  | cons p L ih =>
    rw [List.find?_cons]
    split
    · rfl
    · rename_i hp
      apply ih
      rcases (by simpa using h : x = p.2 ∨ x ∈ L.map Prod.snd) with h2 | h2
      · simp [h2] at hp
      · exact h2

theorem find_conn_aux (vertices : List Int) (P : List (List Int)) (v : Int)
    (hv : v ∈ vertices) (L : List (Nat × Int)) :
    ((L.flatMap fun p => (vertices.filter fun w => repOf vertices P w = p.2).map
        fun w => (p.1, w)).find? fun r => r.2 = v)
      = (L.find? fun p => p.2 = repOf vertices P v).map fun p => (p.1, v) := by
  induction L with
  | nil => rfl
  | cons p L ih =>
    rw [List.flatMap_cons, List.find?_append, List.find?_map, List.find?_cons]
    by_cases hp : p.2 = repOf vertices P v
    · have hvf : v ∈ vertices.filter fun w => repOf vertices P w = p.2 :=
        List.mem_filter.mpr ⟨hv, by simp [hp]⟩
      have hcomp : ((fun r : Nat × Int => decide (r.2 = v)) ∘ fun w => (p.1, w))
          = fun w => decide (w = v) := rfl
      rw [hcomp, find_self_mem hvf]
      simp [hp]
    · have hnone : ((vertices.filter fun w => repOf vertices P w = p.2).find?
          ((fun r : Nat × Int => decide (r.2 = v)) ∘ fun w => (p.1, w))) = none := by
        refine List.find?_eq_none.mpr ?_
        intro w hw
        have hw2 := List.mem_filter.mp hw
        simp only [Function.comp]
        intro hwv
        exact hp (by
          rw [← (by simpa using hwv : w = v)]
          exact (by simpa using hw2.2 : repOf vertices P w = p.2).symm)
      rw [hnone]
      rw [show (decide (p.2 = repOf vertices P v)) = false by simpa using hp]
      simpa using ih

/-- For a vertex of the edge graph, the output group id is the position of
its component representative in the representative list. -/
theorem groupOf_vertex (rows : List (Option Int × Option Int)) (v : Int)
    (hv : v ∈ fecVertices rows) (hne : (fecEdges rows).isEmpty = false) :
    groupOf (find_edges_connections rows) v =
      ((fecReps rows).enum.find? fun p =>
        p.2 = repOf (fecVertices rows) (fecP rows) v).map Prod.fst ∧
      (groupOf (find_edges_connections rows) v).isSome := by
  have hrep : repOf (fecVertices rows) (fecP rows) v ∈ fecReps rows :=
    (mem_pyDedup _ _).mpr (List.mem_map_of_mem _ hv)
  have hsome : ((fecReps rows).enum.find? fun p =>
      p.2 = repOf (fecVertices rows) (fecP rows) v).isSome := by
    apply find_snd_isSome
    rw [List.enum_map_snd]
    exact hrep
  have hmain : groupOf (find_edges_connections rows) v =
      ((fecReps rows).enum.find? fun p =>
        p.2 = repOf (fecVertices rows) (fecP rows) v).map Prod.fst := by
    unfold groupOf find_edges_connections
    rw [hne]
    simp only [Bool.false_eq_true, if_false]
    rw [List.find?_append]
    unfold fecConnections
    rw [find_conn_aux _ _ v hv]
    obtain ⟨p, hp⟩ := Option.isSome_iff_exists.mp hsome
    rw [hp]
    rfl
  refine ⟨hmain, ?_⟩
  rw [hmain]
  obtain ⟨p, hp⟩ := Option.isSome_iff_exists.mp hsome
  rw [hp]
  rfl

/-- A fully populated row contributes its (sorted) pair as an edge. -/
theorem row_edge {rows : List (Option Int × Option Int)} {a b : Int}
    (h : (some a, some b) ∈ rows) :
    ∃ e : Int × Int, e ∈ fecEdges rows ∧
      ((e.1 = a ∧ e.2 = b) ∨ (e.1 = b ∧ e.2 = a)) := by
  have hrow2 : (some a, some b) ∈ fecRows2 rows :=
    List.mem_filter.mpr ⟨h, by simp [cell_is_empty]⟩
  have hset : sortAsc [a, b] ∈ fecEdgesSets rows := by
    have : sortAsc (presentCells (some a, some b)) ∈ fecEdgesSets rows :=
      List.mem_map_of_mem _ hrow2
    simpa [presentCells] using this
  have hlen : (sortAsc [a, b]).length = 2 :=
    (List.perm_insertionSort _ _).length_eq
  have hsplit : sortAsc [a, b] = [a, b] ∨ sortAsc [a, b] = [b, a] := by
    by_cases hab : a ≤ b
    · left
      simp [sortAsc, List.insertionSort, List.orderedInsert, hab]
    · right
      simp [sortAsc, List.insertionSort, List.orderedInsert, hab]
  have hmem : ∀ e : Int × Int, pairsComb (sortAsc [a, b]) = [e] →
      e ∈ fecEdges rows := by
    intro e he
    rw [fecEdges, mem_pyDedup]
    unfold fecEdgesC
    rw [List.mem_flatMap]
    refine ⟨sortAsc [a, b], List.mem_filter.mpr ⟨hset, by simp [hlen]⟩, ?_⟩
    rw [he]
    exact List.mem_singleton_self e
  rcases hsplit with hs | hs
  · exact ⟨(a, b), hmem (a, b) (by rw [hs]; rfl), Or.inl ⟨rfl, rfl⟩⟩
  · exact ⟨(b, a), hmem (b, a) (by rw [hs]; rfl), Or.inr ⟨rfl, rfl⟩⟩

/-- Edge endpoints are vertices. -/
theorem edge_mem_vertices {rows : List (Option Int × Option Int)} {e : Int × Int}
    (he : e ∈ fecEdges rows) : e.1 ∈ fecVertices rows ∧ e.2 ∈ fecVertices rows := by
  have he2 : e ∈ fecEdgesC rows := (mem_pyDedup _ _).mp he
  constructor <;>
    · rw [fecVertices, mem_sortedSet, List.mem_flatMap]
      exact ⟨e, he2, by simp⟩

/-- A fully populated row places its two values in the same component of
the partition, and both are vertices. -/
theorem row_together {rows : List (Option Int × Option Int)} {a b : Int}
    (h : (some a, some b) ∈ rows) :
    togetherB (fecP rows) a b = true ∧ a ∈ fecVertices rows ∧ b ∈ fecVertices rows ∧
      (fecEdges rows).isEmpty = false := by
  obtain ⟨e, he, hor⟩ := row_edge h
  obtain ⟨h1, h2⟩ := edge_mem_vertices he
  have htog : togetherB (fecP rows) e.1 e.2 = true :=
    together_buildPartition_edge he h1 h2
  have hne : (fecEdges rows).isEmpty = false := by
    cases hh : fecEdges rows with
    | nil => rw [hh] at he; simp at he
    | cons x t => simp [hh]
  rcases hor with ⟨ha, hb⟩ | ⟨ha, hb⟩
  · exact ⟨ha ▸ hb ▸ htog, ha ▸ h1, hb ▸ h2, hne⟩
  · exact ⟨ha ▸ hb ▸ (togetherB_symm _ _ _ ▸ htog), hb ▸ h2, ha ▸ h1, hne⟩

/-- Two values in the same component receive the same output group id. -/
theorem groupOf_eq_of_together {rows : List (Option Int × Option Int)} {a b : Int}
    (ha : a ∈ fecVertices rows) (hb : b ∈ fecVertices rows)
    (hne : (fecEdges rows).isEmpty = false)
    (hab : togetherB (fecP rows) a b = true) :
    groupOf (find_edges_connections rows) a = groupOf (find_edges_connections rows) b ∧
      (groupOf (find_edges_connections rows) a).isSome := by
  have hdis : PDisjoint (fecP rows) :=
    pdisjoint_buildPartition _ (nodup_sortedSet _)
  have hreps : repOf (fecVertices rows) (fecP rows) a =
      repOf (fecVertices rows) (fecP rows) b :=
    repOf_eq_of_together hdis ha hab
  obtain ⟨hga, hsa⟩ := groupOf_vertex rows a ha hne
  obtain ⟨hgb, hsb⟩ := groupOf_vertex rows b hb hne
  rw [hga, hgb, hreps]
  exact ⟨rfl, by rw [← hgb]; exact hsb⟩


theorem flatMap_map_eq {α β γ : Type} (L : List α) (f : α → β) (g : β → List γ) :
    (L.map f).flatMap g = L.flatMap fun a => g (f a) := by
  induction L with
  | nil => rfl
  | cons x t ih => simp only [List.map_cons, List.flatMap_cons, ih]

/-- On the non-crash path the explicit comprehension builds exactly the
`connections` table. -/
theorem fecConnectionsE_eq {rows : List (Option Int × Option Int)}
    {conns : List (Nat × Int)} (h : fecConnectionsE rows = some conns) :
    conns = fecConnections rows := by
  unfold fecConnectionsE at h
  split_ifs at h
  have hc : conns = (fecMembers rows).flatMap fun q => q.2.map fun v => (q.1, v) :=
    (Option.some.inj h).symm
  rw [hc]
  unfold fecMembers fecConnections
  rw [flatMap_map_eq]

/-- A successful run of the crash-aware model returns the crash-free
model's output. -/
theorem find_edges_connectionsE_eq {rows : List (Option Int × Option Int)}
    {out : List (Nat × Int)} (h : find_edges_connectionsE rows = some out) :
    out = find_edges_connections rows := by
  unfold find_edges_connectionsE at h
  unfold find_edges_connections
  split_ifs at h ⊢ with he
  · exact (Option.some.inj h).symm
  · cases hc : fecConnectionsE rows with
    | none =>
      rw [hc] at h
      exact absurd h (by simp)
    | some conns =>
      rw [hc] at h
      rw [(Option.some.inj h).symm, fecConnectionsE_eq hc]

/-! ## Claim theorems -/

/-- Whether the standardized form of a `convert_data_to_id` input is
hashable, i.e. byte data or textual. -/
def std_is_hashable (data : PyData) : Bool :=
  match dataStandardizationP data with
  | .bytes _ => true
  | .val (.vStr _) => true
  | _ => false

theorem convert_eq_of_std_eq (d1 d2 : Value) (method : String)
    (h : dataStandardization d1 = dataStandardization d2) :
    convert_data_to_id (.val d1) method = convert_data_to_id (.val d2) method := by
  unfold convert_data_to_id
  simp only [dataStandardizationP]
  rw [h]

/-- C1: for every container input (list, tuple, or dict with distinct keys
over the supported value model) and every reordering of its sequence
elements or reshuffling of its dict entry order, `convert_data_to_id`
returns the identical identifier for both variants, for each valid method
(`"uuid"` and `"sha256"`), and that identifier is present (not absence). -/
theorem claim_C1 (d1 d2 : Value) (method : String)
    (hm : method = "uuid" ∨ method = "sha256")
    (h : (∃ l1 l2, d1 = .vList l1 ∧ d2 = .vList l2 ∧ List.Perm l1 l2) ∨
         (∃ t1 t2, d1 = .vTuple t1 ∧ d2 = .vTuple t2 ∧ List.Perm t1 t2) ∨
         (∃ m1 m2, d1 = .vDict m1 ∧ d2 = .vDict m2 ∧ List.Perm m1 m2 ∧
           (m1.map Prod.fst).Nodup)) :
    convert_data_to_id (.val d1) method = convert_data_to_id (.val d2) method ∧
      (convert_data_to_id (.val d1) method).isSome := by
  have hstd : dataStandardization d1 = dataStandardization d2 := by
    rcases h with ⟨l1, l2, rfl, rfl, hp⟩ | ⟨t1, t2, rfl, rfl, hp⟩ |
      ⟨m1, m2, rfl, rfl, hp, hnd⟩
    · exact (dataStandardization_perm hp).1
    · exact (dataStandardization_perm hp).2
    · exact dataStandardization_dict_perm hp hnd
  refine ⟨convert_eq_of_std_eq d1 d2 method hstd, ?_⟩
  rcases h with ⟨l1, l2, rfl, rfl, hp⟩ | ⟨t1, t2, rfl, rfl, hp⟩ |
    ⟨m1, m2, rfl, rfl, hp, hnd⟩ <;>
    rcases hm with rfl | rfl <;>
    simp [convert_data_to_id, dataStandardizationP, dataStandardization]

theorem claim_C1_witness :
    ("uuid" = "uuid" ∨ "uuid" = "sha256") ∧
    (∃ l1 l2 : List Value, Value.vList [.vInt 2, .vInt 1] = .vList l1 ∧
      Value.vList [.vInt 1, .vInt 2] = .vList l2 ∧ List.Perm l1 l2) ∧
    (convert_data_to_id (.val (.vList [.vInt 2, .vInt 1])) "uuid" =
        convert_data_to_id (.val (.vList [.vInt 1, .vInt 2])) "uuid" ∧
      (convert_data_to_id (.val (.vList [.vInt 2, .vInt 1])) "uuid").isSome) :=
  ⟨Or.inl rfl, ⟨_, _, rfl, rfl, by decide⟩,
    claim_C1 _ _ "uuid" (Or.inl rfl) (Or.inl ⟨_, _, rfl, rfl, by decide⟩)⟩

/-- C2: for every sequence of supported values and every permutation of it,
`data_standardization` yields the same canonical string (for lists and for
tuples): the canonical output is independent of input element order. -/
theorem claim_C2 (l1 l2 : List Value) (h : List.Perm l1 l2) :
    dataStandardization (.vList l1) = dataStandardization (.vList l2) ∧
      dataStandardization (.vTuple l1) = dataStandardization (.vTuple l2) :=
  dataStandardization_perm h

theorem claim_C2_witness :
    List.Perm [Value.vInt 1, Value.vStr "a", Value.vNone]
      [Value.vNone, Value.vStr "a", Value.vInt 1] ∧
    (dataStandardization (.vList [.vInt 1, .vStr "a", .vNone]) =
        dataStandardization (.vList [.vNone, .vStr "a", .vInt 1]) ∧
      dataStandardization (.vTuple [.vInt 1, .vStr "a", .vNone]) =
        dataStandardization (.vTuple [.vNone, .vStr "a", .vInt 1])) :=
  ⟨by decide, claim_C2 _ _ (by decide)⟩

/-- C3 (counterexample): `data_standardization` is *not* side-effect free:
on the caller's dict `{'a': [2, 1]}` the nested list value is replaced in
place by the sorted tuple `(1, 2)`, so the input object has changed after
the call. -/
theorem claim_C3_counterexample :
    dataStandardizationEffect (.vDict [("a", .vList [.vInt 2, .vInt 1])]) ≠
      .vDict [("a", .vList [.vInt 2, .vInt 1])] ∧
    dataStandardizationEffect (.vDict [("a", .vList [.vInt 2, .vInt 1])]) =
      .vDict [("a", .vTuple [.vInt 1, .vInt 2])] := by
  constructor
  · decide
  · decide

/-- C3 (amended): `data_standardization` leaves the caller-owned input
unchanged whenever no dict reachable inside it (through any chain of
containers) holds a sequence (list/tuple) value; in general, such dicts are
mutated in place, their sequence values being replaced by the standardized
tuples `sort_list` returns. -/
theorem claim_C3 (v : Value) (h : dictSeqFree v = true) :
    dataStandardizationEffect v = v :=
  seqEffV_eq v h

theorem claim_C3_witness :
    dictSeqFree (.vList [.vInt 1, .vDict [("k", .vInt 2)]]) = true ∧
    dataStandardizationEffect (.vList [.vInt 1, .vDict [("k", .vInt 2)]]) =
      .vList [.vInt 1, .vDict [("k", .vInt 2)]] :=
  ⟨by decide, claim_C3 _ (by decide)⟩

/-- C4: the comparator orders two items first by their string
representations compared lexicographically (code-point order on the
character lists); on exactly equal strings it falls back to the fixed type
rank table int(1) < str(2) < float(3) < datetime(4) < NoneType(5) < bool(6)
< list(7) < dict(8); when both string form and type name coincide the
items compare equal; in particular `1` and `"1"` are ordered solely by
rank, the integer first. -/
theorem claim_C4 :
    (∀ a b : String × String, a.1 ≠ b.1 →
        compare_items a b = if a.1.data < b.1.data then -1 else 1) ∧
    (type_order "int" = 1 ∧ type_order "str" = 2 ∧ type_order "float" = 3 ∧
      type_order "datetime" = 4 ∧ type_order "NoneType" = 5 ∧ type_order "bool" = 6 ∧
      type_order "list" = 7 ∧ type_order "dict" = 8) ∧
    (∀ a b : String × String, a.1 = b.1 → a.2 ≠ b.2 →
        compare_items a b = if type_order b.2 < type_order a.2 then 1 else -1) ∧
    (∀ a b : String × String, a.1 = b.1 → a.2 = b.2 → compare_items a b = 0) ∧
    (compare_items (Value.pyStr (.vInt 1), Value.typeName (.vInt 1))
        (Value.pyStr (.vStr "1"), Value.typeName (.vStr "1")) = -1 ∧
      compare_items (Value.pyStr (.vStr "1"), Value.typeName (.vStr "1"))
        (Value.pyStr (.vInt 1), Value.typeName (.vInt 1)) = 1) := by
  refine ⟨?_, by decide, ?_, ?_, by decide⟩
  · intro a b hne
    unfold compare_items
    rw [if_pos hne]
    by_cases hlt : a.1.data < b.1.data
    · rw [if_pos hlt, if_neg (asymm hlt)]
    · have hba : b.1.data < a.1.data := by
        rcases lt_trichotomy a.1.data b.1.data with h | h | h
        · exact absurd h hlt
        · exact absurd (String.ext h) hne
        · exact h
      rw [if_neg hlt, if_pos hba]
  · intro a b heq hne
    unfold compare_items
    rw [if_neg (by simpa using heq), if_pos hne]
  · intro a b heq hty
    unfold compare_items
    rw [if_neg (by simpa using heq), if_neg (by simpa using hty)]

theorem claim_C4_witness :
    (("a", "int") : String × String).1 ≠ (("b", "str") : String × String).1 ∧
    compare_items ("a", "int") ("b", "str") =
      (if ("a" : String).data < ("b" : String).data then -1 else 1) ∧
    (("x", "int") : String × String).1 = (("x", "bool") : String × String).1 ∧
    (("x", "int") : String × String).2 ≠ (("x", "bool") : String × String).2 ∧
    compare_items ("x", "int") ("x", "bool") =
      (if type_order "bool" < type_order "int" then 1 else -1) :=
  ⟨by decide, claim_C4.1 ("a", "int") ("b", "str") (by decide),
    rfl, by decide, claim_C4.2.2.1 ("x", "int") ("x", "bool") rfl (by decide)⟩

set_option maxRecDepth 1000000 in
/-- C5 (counterexample): the identifiers of the four canonical empty inputs
are *not* pairwise distinct: the empty byte string and the empty text
standardize to the same hash input, so `b""` and `""` share one identifier. -/
theorem claim_C5_counterexample :
    convert_data_to_id (.bytes []) "uuid" =
      convert_data_to_id (.val (.vStr "")) "uuid" := by decide

set_option maxRecDepth 1000000 in
/-- C5 (amended): `convert_data_to_id` with method `"uuid"` maps the empty
bytes and the empty string both to `5150bdd9-c6ab-3d68-a915-e58d5ac56d50`,
the empty list to `2061443b-712a-3816-bbf6-0e31a077be9f` and the empty dict
to `46369ab4-05ab-36da-bb30-49738a5110c9`; these three identifiers are
pairwise distinct, so the empty containers are told apart from each other
and from empty byte/text data, but `b""` and `""` collide. -/
theorem claim_C5 :
    convert_data_to_id (.bytes []) "uuid" =
      some "5150bdd9-c6ab-3d68-a915-e58d5ac56d50" ∧
    convert_data_to_id (.val (.vStr "")) "uuid" =
      some "5150bdd9-c6ab-3d68-a915-e58d5ac56d50" ∧
    convert_data_to_id (.val (.vList [])) "uuid" =
      some "2061443b-712a-3816-bbf6-0e31a077be9f" ∧
    convert_data_to_id (.val (.vDict [])) "uuid" =
      some "46369ab4-05ab-36da-bb30-49738a5110c9" ∧
    ("5150bdd9-c6ab-3d68-a915-e58d5ac56d50" ≠
        "2061443b-712a-3816-bbf6-0e31a077be9f" ∧
      "5150bdd9-c6ab-3d68-a915-e58d5ac56d50" ≠
        "46369ab4-05ab-36da-bb30-49738a5110c9" ∧
      "2061443b-712a-3816-bbf6-0e31a077be9f" ≠
        "46369ab4-05ab-36da-bb30-49738a5110c9") := by
  refine ⟨by decide, by decide, by decide, by decide, by decide⟩

/-- C6: `convert_data_to_id` returns no identifier exactly when the
standardized data is neither bytes nor a string (i.e. a scalar or container
the standardization step left unhashed) or the method is neither `"uuid"`
nor `"sha256"`; in every other case it produces an identifier. -/
theorem claim_C6 (data : PyData) (method : String) :
    convert_data_to_id data method = none ↔
      (std_is_hashable data = false ∨ (method ≠ "uuid" ∧ method ≠ "sha256")) := by
  cases data with
  | bytes bs =>
    simp only [convert_data_to_id, dataStandardizationP, std_is_hashable]
    split_ifs <;> simp_all
  | val v =>
    cases hstd : dataStandardization v with
    | vStr s =>
      simp only [convert_data_to_id, dataStandardizationP, std_is_hashable, hstd]
      split_ifs <;> simp_all
    | vInt n =>
      simp only [convert_data_to_id, dataStandardizationP, std_is_hashable, hstd]
      simp
    | vBool b =>
      simp only [convert_data_to_id, dataStandardizationP, std_is_hashable, hstd]
      simp
    | vNone =>
      simp only [convert_data_to_id, dataStandardizationP, std_is_hashable, hstd]
      simp
    | vList l =>
      simp only [convert_data_to_id, dataStandardizationP, std_is_hashable, hstd]
      simp
    | vTuple l =>
      simp only [convert_data_to_id, dataStandardizationP, std_is_hashable, hstd]
      simp
    | vDict m =>
      simp only [convert_data_to_id, dataStandardizationP, std_is_hashable, hstd]
      simp

/-- C7 (counterexample): the original claim fails because the call can
crash instead of grouping: with rows `(1,2), (2,3), (7,7)` the value 7
keeps only its self-loop edge and forms a single-member component, so
`itemgetter(*c[i])` returns the bare number, iterating it raises
`TypeError`, and no output table — hence no common group for 1, 2, 3 —
is ever produced, although rows `(1,2)` and `(2,3)` are present. -/
theorem claim_C7_counterexample :
    ((some 1, some 2) ∈
        ([(some 1, some 2), (some 2, some 3), (some 7, some 7)] :
          List (Option Int × Option Int))) ∧
    ((some 2, some 3) ∈
        ([(some 1, some 2), (some 2, some 3), (some 7, some 7)] :
          List (Option Int × Option Int))) ∧
    find_edges_connectionsE
        [(some 1, some 2), (some 2, some 3), (some 7, some 7)] = none := by
  refine ⟨by decide, by decide, by decide⟩

/-- C7 (amended): on every run of `find_edges_connections` that completes
(no single-member component triggers the `itemgetter` `TypeError`, i.e.
the crash-aware model returns an output table), rows `(a,b)` and `(b,c)`
with non-missing values force `a`, `b` and `c` into one group: a single
group id is assigned to all three, so transitive grouping holds on the
success path. -/
theorem claim_C7 (rows : List (Option Int × Option Int)) (a b c : Int)
    (out : List (Nat × Int)) (hout : find_edges_connectionsE rows = some out)
    (h1 : (some a, some b) ∈ rows) (h2 : (some b, some c) ∈ rows) :
    ∃ g, groupOf out a = some g ∧ groupOf out b = some g ∧
      groupOf out c = some g := by
  have hfe := find_edges_connectionsE_eq hout
  subst hfe
  obtain ⟨hab, ha, hb, hne⟩ := row_together h1
  obtain ⟨hbc, _, hc, _⟩ := row_together h2
  have hdis : PDisjoint (fecP rows) :=
    pdisjoint_buildPartition _ (nodup_sortedSet _)
  have hac : togetherB (fecP rows) a c = true := togetherB_trans hdis hab hbc
  obtain ⟨hgab, hsome⟩ := groupOf_eq_of_together ha hb hne hab
  obtain ⟨hgac, _⟩ := groupOf_eq_of_together ha hc hne hac
  obtain ⟨g, hg⟩ := Option.isSome_iff_exists.mp hsome
  exact ⟨g, hg, by rw [← hgab]; exact hg, by rw [← hgac]; exact hg⟩

theorem claim_C7_witness :
    (find_edges_connectionsE [(some 1, some 2), (some 2, some 3)] =
        some [(0, 1), (0, 2), (0, 3)]) ∧
    ((some 1, some 2) ∈
        ([(some 1, some 2), (some 2, some 3)] : List (Option Int × Option Int))) ∧
    ((some 2, some 3) ∈
        ([(some 1, some 2), (some 2, some 3)] : List (Option Int × Option Int))) ∧
    ∃ g, groupOf [(0, 1), (0, 2), (0, 3)] 1 = some g ∧
      groupOf [(0, 1), (0, 2), (0, 3)] 2 = some g ∧
      groupOf [(0, 1), (0, 2), (0, 3)] 3 = some g :=
  ⟨by decide, by decide, by decide,
    claim_C7 [(some 1, some 2), (some 2, some 3)] 1 2 3 [(0, 1), (0, 2), (0, 3)]
      (by decide) (by decide) (by decide)⟩

/-- C8: on the rows `(1,2), (2,3), (4,None), (5,None)` the function returns
exactly `[(0,1), (0,2), (0,3), (1,4), (2,5)]`: the chained values 1, 2, 3
form group 0, while the isolated values 4 and 5 get the fresh singleton
groups 1 and 2 appended after the connected groups. -/
theorem claim_C8 :
    find_edges_connections
        [(some 1, some 2), (some 2, some 3), (some 4, none), (some 5, none)] =
      [(0, 1), (0, 2), (0, 3), (1, 4), (2, 5)] ∧
    groupOf (find_edges_connections
        [(some 1, some 2), (some 2, some 3), (some 4, none), (some 5, none)]) 1 =
      some 0 ∧
    groupOf (find_edges_connections
        [(some 1, some 2), (some 2, some 3), (some 4, none), (some 5, none)]) 4 =
      some 1 ∧
    groupOf (find_edges_connections
        [(some 1, some 2), (some 2, some 3), (some 4, none), (some 5, none)]) 5 =
      some 2 := by
  refine ⟨by decide, by decide, by decide, by decide⟩

/-- C9: a type name outside the eight-entry rank table gets rank 0, which
sorts *before* every tabulated type rather than after: with equal string
forms, an item of unknown type compares as smaller (result -1) against any
item whose type is in the table, and the reverse comparison yields 1. -/
theorem claim_C9 (s t u : String)
    (ht : t ∉ ["int", "str", "float", "datetime", "NoneType", "bool", "list", "dict"])
    (hu : u ∈ ["int", "str", "float", "datetime", "NoneType", "bool", "list", "dict"]) :
    type_order t = 0 ∧ compare_items (s, t) (s, u) = -1 ∧
      compare_items (s, u) (s, t) = 1 := by
  have hts : t ≠ "int" ∧ t ≠ "str" ∧ t ≠ "float" ∧ t ≠ "datetime" ∧
      t ≠ "NoneType" ∧ t ≠ "bool" ∧ t ≠ "list" ∧ t ≠ "dict" := by
    simpa using ht
  obtain ⟨n1, n2, n3, n4, n5, n6, n7, n8⟩ := hts
  have ht0 : type_order t = 0 := by
    unfold type_order
    rw [if_neg n1, if_neg n2, if_neg n3, if_neg n4, if_neg n5, if_neg n6,
      if_neg n7, if_neg n8]
  have htu : t ≠ u := by
    intro he
    exact ht (he ▸ hu)
  have hupos : 0 < type_order u := by
    fin_cases hu <;> decide
  refine ⟨ht0, ?_, ?_⟩
  · have hred : compare_items (s, t) (s, u) =
        if type_order u < type_order t then 1 else -1 := by
      unfold compare_items
      rw [if_neg (by simp), if_pos (by simpa using htu)]
    rw [hred, ht0, if_neg (Nat.not_lt_zero _)]
  · have hred : compare_items (s, u) (s, t) =
        if type_order t < type_order u then 1 else -1 := by
      unfold compare_items
      rw [if_neg (by simp), if_pos (by simpa using htu.symm)]
    rw [hred, ht0, if_pos hupos]

theorem claim_C9_witness :
    (("set" : String) ∉
        ["int", "str", "float", "datetime", "NoneType", "bool", "list", "dict"]) ∧
    (("int" : String) ∈
        ["int", "str", "float", "datetime", "NoneType", "bool", "list", "dict"]) ∧
    (type_order "set" = 0 ∧ compare_items ("x", "set") ("x", "int") = -1 ∧
      compare_items ("x", "int") ("x", "set") = 1) :=
  ⟨by decide, by decide, claim_C9 "x" "set" "int" (by decide) (by decide)⟩

/-- C10: for every text and every method, `convert_data_to_id` on the
string agrees with `convert_data_to_id` on its UTF-8 byte encoding: strings
are hashed through their UTF-8 bytes, so text and encoded bytes always
receive the same identifier. -/
theorem claim_C10 (s : String) (method : String) :
    convert_data_to_id (.val (.vStr s)) method =
      convert_data_to_id (.bytes (utf8Encode s)) method := rfl

end HelperBkp
